import Mathlib

/-!
Shallow embedding of the master-side dispatch core of the `maco` repository
(master/minion remote command execution), together with proofs about the
claims of its specification.

Conventions used throughout:
- Go strings are embedded as `List Char` (named `Str`) where character-level
  operations matter (the selector engine), and as Lean `String` where only
  equality matters (minion names in the storage/scheduler embedding).
- Go byte slices are embedded as `List Nat`.
- Go maps and map-backed sets are embedded as association lists / `Finset`.
- External library functions that are not part of this repository
  (POSIX regex compilation/matching from Go's `regexp`, CIDR parsing from
  `iprange`, RSA primitives from `crypto/rsa`, MsgPack from `msgpack`) are
  parameters of the embedded definitions: the embedding is faithful to how
  the repository's own code calls them and combines their results.
- Go panics and fatal errors are embedded as `Option`/`Except` failures.
-/

namespace Maco

/-- Characters of a Go string. -/
abbrev Str := List Char

/-- ASCII whitespace predicate used by `strings.TrimSpace`
(unicode-only space characters do not occur in any input considered here). -/
def isSpaceChar (c : Char) : Bool :=
  c = ' ' || c = '\t' || c = '\n' || c = '\r' || c = '\x0b' || c = '\x0c'

/-- Embedding of Go `strings.TrimSpace`. -/
def goTrim (s : Str) : Str :=
  ((s.dropWhile isSpaceChar).reverse.dropWhile isSpaceChar).reverse

/-- Embedding of Go `strings.HasPrefix s pre`. -/
def goStartsWith : Str → Str → Bool
  | _, [] => true
  | [], _ :: _ => false
  | c :: cs, p :: ps => c = p && goStartsWith cs ps

/-- Embedding of Go `strings.HasSuffix s suf`. -/
def goEndsWith (s suf : Str) : Bool :=
  goStartsWith s.reverse suf.reverse

/-- Embedding of Go `strings.Join l ","`. -/
def joinComma (l : List Str) : Str :=
  List.intercalate [','] l

/-- Embedding of Go `strings.Split s ","`. -/
def splitComma (s : Str) : List Str :=
  s.splitOn ','

/-- External-library oracle: the selector engine calls Go's
`regexp.CompilePOSIX` / `Regexp.MatchString` and `iprange.ParseRanges` /
`Range.Contains`.  These are not code of this repository; the embedding
takes their behaviour as a parameter and only mirrors how the repository
combines the answers. -/
structure ExtOracle where
  rxCompiles : Str → Bool
  rxMatches : Str → Str → Bool
  ipParses : Str → Bool
  ipContains : Str → Str → Bool

/-- A concrete oracle instance used to evaluate the embedding on closed
inputs whose evaluation never reaches a regex or CIDR call (every such use
is noted at the theorem that uses it). -/
def extTrivial : ExtOracle :=
  { rxCompiles := fun _ => true
    rxMatches := fun _ _ => false
    ipParses := fun _ => true
    ipContains := fun _ _ => false }

/-- Embedding of `types.SelectionKV`. -/
structure SelectionKV where
  key : Str
  value : Str
deriving DecidableEq

/-- Embedding of `types.Selection` (api/types/types.go).  Pointer fields are
`Option`s; the `And`/`Or` pointer fields are represented by the Booleans
`logicAnd`/`logicOr` (`true` iff the Go pointer is non-nil). -/
structure Selection where
  hosts : List Str := []
  hostPcre : Str := []
  idRange : Str := []
  hostGroups : List Str := []
  ipCidr : Str := []
  grains : Option SelectionKV := none
  grainsPcre : Option SelectionKV := none
  pillar : Option SelectionKV := none
  pillarPcre : Option SelectionKV := none
  logicAnd : Bool := false
  logicOr : Bool := false
deriving DecidableEq

/-- The `and` connective element inserted by `SelectionOptions.and`. -/
def selAnd : Selection := { logicAnd := true }

/-- The `or` connective element inserted by `SelectionOptions.or`. -/
def selOr : Selection := { logicOr := true }

/-- Embedding of `types.SelectionOptions`. -/
structure SelectionOptions where
  selections : List Selection := []
deriving DecidableEq

/-- Embedding of `Selection.isLogic`. -/
def selIsLogic (s : Selection) : Bool :=
  s.logicAnd || s.logicOr

/-- Embedding of `Selection.MatchId`.  Returns `(matched, hit)` exactly as
the Go method does: the `Hosts` branch first compares `Hosts[0]` with `"*"`,
then scans the list; the `HostPcre` branch consults the regex oracle; the
`IdRange` branch interprets a leading `%` as suffix match and a trailing `%`
as prefix match (both slices taken from the unmodified pattern). -/
def matchId (ext : ExtOracle) (s : Selection) (id : Str) : Bool × Bool :=
  if s.hosts ≠ [] then
    if s.hosts.head? = some ['*'] then (true, true)
    else (s.hosts.any (fun v => v = ['*'] || v = id), true)
  else if s.hostPcre ≠ [] then
    if ext.rxCompiles s.hostPcre then (ext.rxMatches s.hostPcre id, true)
    else (false, true)
  else if s.idRange ≠ [] then
    let ok1 := if s.idRange.head? = some '%' then goEndsWith id (s.idRange.drop 1) else true
    let ok2 :=
      if s.idRange.getLast? = some '%' then ok1 && goStartsWith id s.idRange.dropLast
      else ok1
    (ok2, true)
  else (false, false)

/-- Embedding of `Selection.MatchIP`: `(matched, hit)`; hit is true exactly
when the selection carries a CIDR; parse failure yields `(false, true)`. -/
def matchIP (ext : ExtOracle) (s : Selection) (ip : Str) : Bool × Bool :=
  if s.ipCidr ≠ [] then
    if ext.ipParses s.ipCidr then (ext.ipContains s.ipCidr ip, true)
    else (false, true)
  else (false, false)

/-- Embedding of `Selection.ToText`: first non-empty field wins, in the
source's order. -/
def selToText (s : Selection) : Str :=
  if s.hosts ≠ [] then joinComma s.hosts
  else if s.hostPcre ≠ [] then ['E', '@'] ++ s.hostPcre
  else if s.idRange ≠ [] then ['R', '@'] ++ s.idRange
  else if s.hostGroups ≠ [] then ['N', '@'] ++ joinComma s.hostGroups
  else if s.ipCidr ≠ [] then ['S', '@'] ++ s.ipCidr
  else match s.grains with
  | some kv => ['G', '@'] ++ kv.key ++ [':'] ++ kv.value
  | none => match s.grainsPcre with
  | some kv => ['P', '@'] ++ kv.key ++ [':'] ++ kv.value
  | none => match s.pillar with
  | some kv => ['I', '@'] ++ kv.key ++ [':'] ++ kv.value
  | none => match s.pillarPcre with
  | some kv => ['J', '@'] ++ kv.key ++ [':'] ++ kv.value
  | none =>
    if s.logicAnd then ['a', 'n', 'd']
    else if s.logicOr then ['o', 'r']
    else []

/-- Embedding of `SelectionOptions.ToText`: tokens joined by single
spaces (the buffer loop writes a space after every token but the last). -/
def optionsToText (o : SelectionOptions) : Str :=
  List.intercalate [' '] (o.selections.map selToText)

/-- Validation error kinds of `SelectionOptions.Validate` (the Go code
returns formatted error strings; only the kind is modelled). -/
inductive ValErr
  | emptySelection
  | firstIsLogic
  | continuousLogic
  | badRegex
  | badIpRange
  | noSelection
deriving DecidableEq

/-- Embedding of Go `strings.Cut s sep` for a one-character separator:
`(before, after, found)` at the first occurrence. -/
def goCut (s : Str) (c : Char) : Str × Str × Bool :=
  match s.findIdx? (· = c) with
  | some i => (s.take i, s.drop (i + 1), true)
  | none => (s, [], false)

/-- One iteration body of `SelectionOptions.Validate`, as a recursion over
the remaining selections carrying (`isFirst`, `hasSelection`,
`lastIsLogic`).  Note the source binds `_, before, ok := strings.Cut(text, ":")`,
so its `before` is in fact the part *after* the first colon; when the token
has a tag `E`/`P`/`J` and no colon the whole token (tag included) is what
gets compiled. -/
def validateLoop (ext : ExtOracle) :
    List Selection → Bool → Bool → Bool → Except ValErr Unit
  | [], _, hasSel, _ => if hasSel then .ok () else .error .noSelection
  | s :: rest, isFirst, hasSel, lastIsLogic =>
    let text := selToText s
    let hasSel' := hasSel ||
      (text ≠ [] && text ≠ ['a', 'n', 'd'] && text ≠ ['o', 'r'])
    if text = [] then .error .emptySelection
    else if isFirst && selIsLogic s then .error .firstIsLogic
    else if lastIsLogic && selIsLogic s then .error .continuousLogic
    else
      let pat0 : Str := if s.hostPcre ≠ [] then s.hostPcre else []
      let pat :=
        match text.findIdx? (· = '@') with
        | some idx =>
          if 0 < idx then
            let tag := text.take idx
            if tag = ['E'] || tag = ['P'] || tag = ['J'] then
              match goCut text ':' with
              | (_, after, true) => after
              | (_, _, false) => text
            else pat0
          else pat0
        | none => pat0
      if pat ≠ [] && ¬ ext.rxCompiles pat then .error .badRegex
      else if s.ipCidr ≠ [] && ¬ ext.ipParses s.ipCidr then .error .badIpRange
      else validateLoop ext rest false hasSel' (selIsLogic s)

/-- Embedding of `SelectionOptions.Validate`. -/
def validate (ext : ExtOracle) (o : SelectionOptions) : Except ValErr Unit :=
  validateLoop ext o.selections true false false

/-- Parse error kinds of `ParseSelection`. -/
inductive ParseErr
  | badHostRegex
  | badIpRange
  | badGrainsRegex
  | badPillarRegex
deriving DecidableEq

/-- The `@`/`:` scan of one token of `ParseSelection`: every `@` turns the
accumulated piece into the tag, every `:` into the key, and the final piece
(trimmed, like each assigned piece) is the value — exactly the index loop of
the source restricted to one space-delimited segment. -/
def scanTok : Str → Str → Str → Str → Str × Str × Str
  | tag, key, cur, [] => (tag, key, goTrim cur)
  | tag, key, cur, c :: cs =>
    if c = '@' then scanTok (goTrim cur) key [] cs
    else if c = ':' then scanTok tag (goTrim cur) [] cs
    else scanTok tag key (cur ++ [c]) cs

/-- The tag dispatch of `ParseSelection` for one token.  `.ok none` is the
source's fall-through for an unrecognized tag: no selection is appended.
The `and`/`or` cases of the source's switch are cases on the *tag* (set only
when the token contains `@`), so a bare `and`/`or` token goes through the
empty-tag host case. -/
def parseTok (ext : ExtOracle) (tok : Str) : Except ParseErr (Option Selection) :=
  match scanTok [] [] [] tok with
  | (tag, key, value) =>
    if tag = ['E'] then
      if ext.rxCompiles value then .ok (some { hostPcre := value })
      else .error .badHostRegex
    else if tag = ['R'] then .ok (some { idRange := value })
    else if tag = ['N'] then .ok (some { hostGroups := splitComma value })
    else if tag = ['S'] then
      if ext.ipParses value then .ok (some { ipCidr := value })
      else .error .badIpRange
    else if tag = ['G'] then .ok (some { grains := some ⟨key, value⟩ })
    else if tag = ['P'] then
      if ext.rxCompiles value then .ok (some { grainsPcre := some ⟨key, value⟩ })
      else .error .badGrainsRegex
    else if tag = ['I'] then .ok (some { pillar := some ⟨key, value⟩ })
    else if tag = ['J'] then
      if ext.rxCompiles value then .ok (some { pillarPcre := some ⟨key, value⟩ })
      else .error .badPillarRegex
    else if tag = ['a', 'n', 'd'] then .ok (some selAnd)
    else if tag = ['o', 'r'] then .ok (some selOr)
    else if tag = [] then
      .ok (some (if value = ['*'] then { hosts := [['*']] }
                 else { hosts := splitComma value }))
    else .ok none

/-- Token-list driver of `ParseSelection`: errors abort, `none` results are
dropped, the rest are collected in order. -/
def parseToks (ext : ExtOracle) : List Str → Except ParseErr (List Selection)
  | [] => .ok []
  | t :: ts =>
    match parseTok ext t with
    | .error e => .error e
    | .ok none => parseToks ext ts
    | .ok (some s) => (parseToks ext ts).map (s :: ·)

/-- Embedding of `ParseSelection`.  The source's index loop cuts the trimmed
text at every space (the terminal segment included); each segment beyond the
first carries its leading separator space, which every piece assignment
strips again with `TrimSpace` — so the loop is equivalent to splitting the
trimmed text on single spaces and scanning each token, which is how it is
embedded here (`scanTok` keeps the per-piece trims). -/
def parseSelection (ext : ExtOracle) (text : Str) : Except ParseErr SelectionOptions :=
  (parseToks ext ((goTrim text).splitOn ' ')).map (fun sels => { selections := sels })

/-- The `and`-flag computed from the Go variadic `or ...bool` argument:
`f := true; if len(or) > 0 && !or[0] { f = false }`. -/
def andFlagOf (lg : List Bool) : Bool :=
  lg.headD true

/-- Embedding of `SelectionOptions.append` (with `and`/`or` inlined):
first selection is appended bare, later ones behind a connective.  (The
source tests `Selections == nil`; along the constructor path a nil slice
coincides with an empty one.) -/
def appendSel (o : SelectionOptions) (s : Selection) (andFlag : Bool) : SelectionOptions :=
  if o.selections.isEmpty then { selections := [s] }
  else if andFlag then { selections := o.selections ++ [selAnd, s] }
  else { selections := o.selections ++ [selOr, s] }

/-- Embedding of `WithHosts`. -/
def withHosts (host : Str) (lg : List Bool) (o : SelectionOptions) : SelectionOptions :=
  appendSel o { hosts := [host] } (andFlagOf lg)

/-- Embedding of `WithList`. -/
def withList (hosts : List Str) (lg : List Bool) (o : SelectionOptions) : SelectionOptions :=
  appendSel o { hosts := hosts } (andFlagOf lg)

/-- Embedding of `WithHostRegex`. -/
def withHostRegex (pat : Str) (lg : List Bool) (o : SelectionOptions) : SelectionOptions :=
  appendSel o { hostPcre := pat } (andFlagOf lg)

/-- Embedding of `WithRange`. -/
def withRange (idt : Str) (lg : List Bool) (o : SelectionOptions) : SelectionOptions :=
  appendSel o { idRange := idt } (andFlagOf lg)

/-- Embedding of `WithHostGroup`. -/
def withHostGroup (groups : List Str) (lg : List Bool) (o : SelectionOptions) : SelectionOptions :=
  appendSel o { hostGroups := groups } (andFlagOf lg)

/-- Embedding of `WithIPCidr`. -/
def withIPCidr (cidr : Str) (lg : List Bool) (o : SelectionOptions) : SelectionOptions :=
  appendSel o { ipCidr := cidr } (andFlagOf lg)

/-- Embedding of `WithGrains`. -/
def withGrains (key value : Str) (lg : List Bool) (o : SelectionOptions) : SelectionOptions :=
  appendSel o { grains := some ⟨key, value⟩ } (andFlagOf lg)

/-- Embedding of `WithGrainsRegex`. -/
def withGrainsRegex (key pat : Str) (lg : List Bool) (o : SelectionOptions) : SelectionOptions :=
  appendSel o { grainsPcre := some ⟨key, pat⟩ } (andFlagOf lg)

/-- Embedding of `WithPillar`. -/
def withPillar (key value : Str) (lg : List Bool) (o : SelectionOptions) : SelectionOptions :=
  appendSel o { pillar := some ⟨key, value⟩ } (andFlagOf lg)

/-- Embedding of `WithPillarRegex`. -/
def withPillarRegex (key pat : Str) (lg : List Bool) (o : SelectionOptions) : SelectionOptions :=
  appendSel o { pillarPcre := some ⟨key, pat⟩ } (andFlagOf lg)

/-- One application of an option constructor, for quantifying over
"`SelectionOptions` built via the option constructors". -/
inductive Ctor
  | hosts (host : Str) (lg : List Bool)
  | list (hosts : List Str) (lg : List Bool)
  | hostRegex (pat : Str) (lg : List Bool)
  | range (idt : Str) (lg : List Bool)
  | hostGroup (groups : List Str) (lg : List Bool)
  | ipCidr (cidr : Str) (lg : List Bool)
  | grains (key value : Str) (lg : List Bool)
  | grainsRegex (key pat : Str) (lg : List Bool)
  | pillar (key value : Str) (lg : List Bool)
  | pillarRegex (key pat : Str) (lg : List Bool)

/-- Apply one constructor to an options value. -/
def applyCtor (o : SelectionOptions) : Ctor → SelectionOptions
  | .hosts h lg => withHosts h lg o
  | .list hs lg => withList hs lg o
  | .hostRegex p lg => withHostRegex p lg o
  | .range r lg => withRange r lg o
  | .hostGroup gs lg => withHostGroup gs lg o
  | .ipCidr c lg => withIPCidr c lg o
  | .grains k v lg => withGrains k v lg o
  | .grainsRegex k p lg => withGrainsRegex k p lg o
  | .pillar k v lg => withPillar k v lg o
  | .pillarRegex k p lg => withPillarRegex k p lg o

/-- `NewSelectionOptions`' construction phase: apply the constructors in
order to an empty options value (validation is `validate`). -/
def buildOptions (cs : List Ctor) : SelectionOptions :=
  cs.foldl applyCtor {}

/-- Embedding of `SelectionTarget` (the capability set `Id`, `IP`,
`Groups`, `Grains`, `Pillars`); the two maps are association lists. -/
structure Target where
  id : Str
  ip : Str
  groups : List Str
  grains : List (Str × Str)
  pillars : List (Str × Str)

/-- Go map lookup on an association list. -/
def lookupKV : List (Str × Str) → Str → Option Str
  | [], _ => none
  | (k, v) :: rest, key => if k = key then some v else lookupKV rest key

/-- The loop state of `MatchTarget`: `result` (initially `true`),
`resultHit` (initially `false`), `lastMatch` (Go zero value `false`). -/
structure MState where
  result : Bool
  resultHit : Bool
  lastMatch : Bool
deriving DecidableEq

/-- The host-group double loop of `MatchTarget`: the inner body (which sets
`resultHit`) runs iff both lists are non-empty; `lastMatch` is set to `true`
iff some pair agrees (and is left unchanged otherwise). -/
def groupScan (tgroups sgroups : List Str) (st : MState) : MState :=
  if tgroups = [] then st
  else if sgroups = [] then st
  else if tgroups.any (fun g => sgroups.any (fun h => g = h)) then
    { st with resultHit := true, lastMatch := true }
  else { st with resultHit := true }

/-- The grains block of `MatchTarget` (`some` = the branch `continue`s with
the given state, `none` = fall through).  For `Grains`, `resultHit` is set
before the lookup; for `GrainsPcre` it is set before the lookup and
`lastMatch` is only assigned when the pattern compiles. -/
def grainsStep (ext : ExtOracle) (s : Selection) (grains : List (Str × Str))
    (st : MState) : Option MState :=
  if grains = [] then none
  else match s.grains with
  | some kv =>
    let st1 := { st with resultHit := true }
    some (match lookupKV grains kv.key with
          | some v => { st1 with lastMatch := v = kv.value }
          | none => st1)
  | none => match s.grainsPcre with
    | some kv =>
      let st1 := { st with resultHit := true }
      some (match lookupKV grains kv.key with
            | some v =>
              if ext.rxCompiles kv.value then
                { st1 with lastMatch := ext.rxMatches kv.value v }
              else st1
            | none => st1)
    | none => none

/-- The pillar block of `MatchTarget`; unlike the grains block, `resultHit`
is only set when the key lookup succeeds. -/
def pillarsStep (ext : ExtOracle) (s : Selection) (pillars : List (Str × Str))
    (st : MState) : Option MState :=
  if pillars = [] then none
  else match s.pillar with
  | some kv =>
    some (match lookupKV pillars kv.key with
          | some v => { st with resultHit := true, lastMatch := v = kv.value }
          | none => st)
  | none => match s.pillarPcre with
    | some kv =>
      some (match lookupKV pillars kv.key with
            | some v =>
              let st1 := { st with resultHit := true }
              if ext.rxCompiles kv.value then
                { st1 with lastMatch := ext.rxMatches kv.value v }
              else st1
            | none => st)
    | none => none

/-- One iteration of the `MatchTarget` loop over a single selection. -/
def matchStep (ext : ExtOracle) (tgt : Target) (simple : Bool)
    (st : MState) (s : Selection) : MState :=
  if s.logicAnd then { st with result := st.result && st.lastMatch }
  else if s.logicOr then { st with result := st.result || st.lastMatch }
  else
    let idStep : Option MState :=
      if tgt.id ≠ [] then
        match matchId ext s tgt.id with
        | (m, true) => some { st with lastMatch := m, resultHit := true }
        | (_, false) => none
      else none
    match idStep with
    | some st1 => st1
    | none =>
      let ipStep : Option MState :=
        if tgt.ip ≠ [] then
          match matchIP ext s tgt.ip with
          | (m, true) => some { st with lastMatch := m, resultHit := true }
          | (_, false) => none
        else none
      match ipStep with
      | some st1 => st1
      | none =>
        let st2 := groupScan tgt.groups s.hostGroups st
        if simple then st2
        else match grainsStep ext s tgt.grains st2 with
        | some st3 => st3
        | none => match pillarsStep ext s tgt.pillars st2 with
          | some st3 => st3
          | none => st2

/-- Embedding of `SelectionOptions.MatchTarget`: fold the loop body over the
selections from the initial state and return
`(result && lastMatch, resultHit)`. -/
def matchTarget (ext : ExtOracle) (o : SelectionOptions) (tgt : Target)
    (simple : Bool) : Bool × Bool :=
  let st := o.selections.foldl (matchStep ext tgt simple) ⟨true, false, false⟩
  (st.result && st.lastMatch, st.resultHit)

/-- Modelled from the spec (§4.3): the boolean a single term reduces to,
for the fold-semantics the spec ascribes to `MatchTarget` ("reducing terms
to booleans and folding with the inline connectives").  Host, regex and
range terms are evaluated against the target id, CIDR terms against the
target IP, group terms by membership, grain/pillar terms by lookup. -/
def specTermValue (ext : ExtOracle) (tgt : Target) (s : Selection) : Bool :=
  if s.hosts ≠ [] || s.hostPcre ≠ [] || s.idRange ≠ [] then (matchId ext s tgt.id).1
  else if s.ipCidr ≠ [] then (matchIP ext s tgt.ip).1
  else if s.hostGroups ≠ [] then
    tgt.groups.any (fun g => s.hostGroups.any (fun h => g = h))
  else match s.grains with
  | some kv => ((lookupKV tgt.grains kv.key).map (fun v => decide (v = kv.value))).getD false
  | none => match s.grainsPcre with
  | some kv => ((lookupKV tgt.grains kv.key).map (ext.rxMatches kv.value)).getD false
  | none => match s.pillar with
  | some kv => ((lookupKV tgt.pillars kv.key).map (fun v => decide (v = kv.value))).getD false
  | none => match s.pillarPcre with
  | some kv => ((lookupKV tgt.pillars kv.key).map (ext.rxMatches kv.value)).getD false
  | none => false

/-- Modelled from the spec (§4.3): the left-to-right no-precedence fold over
an alternating `term (conn term)*` sequence, continuing from accumulator
`acc`: each connective combines the accumulator with the *following* term's
value (so `a or b` folds to `eval a || eval b`). -/
def specFoldGo (ext : ExtOracle) (tgt : Target) : Bool → List Selection → Bool
  | acc, [] => acc
  | acc, c :: rest =>
    match rest with
    | t :: rest' =>
      specFoldGo ext tgt
        (if c.logicAnd then acc && specTermValue ext tgt t
         else if c.logicOr then acc || specTermValue ext tgt t
         else acc) rest'
    | [] => acc

/-- Modelled from the spec (§4.3): the fold-semantics match result the
claim ascribes to `MatchTarget`. -/
def specFoldMatch (ext : ExtOracle) (tgt : Target) (sels : List Selection) : Bool :=
  match sels with
  | [] => false
  | t :: rest => specFoldGo ext tgt (specTermValue ext tgt t) rest

/-- Characters that take no part in the tokenizer's structure: anything but
`@`, `:` and ASCII whitespace. -/
def plainChar (c : Char) : Bool :=
  ¬ (c = '@' || c = ':' || isSpaceChar c)

/-- A non-empty string of plain characters. -/
def cleanStr (s : Str) : Bool :=
  ¬ s.isEmpty && s.all plainChar

/-- Constructor arguments that keep clear of the tokenizer's structural
characters (non-empty, no `@`, no `:`, no whitespace). -/
def ctorClean : Ctor → Bool
  | .hosts h _ => cleanStr h
  | .list hs _ => ¬ hs.isEmpty && hs.all cleanStr
  | .hostRegex p _ => cleanStr p
  | .range r _ => cleanStr r
  | .hostGroup gs _ => ¬ gs.isEmpty && gs.all cleanStr
  | .ipCidr c _ => cleanStr c
  | .grains k v _ => cleanStr k && cleanStr v
  | .grainsRegex k p _ => cleanStr k && cleanStr p
  | .pillar k v _ => cleanStr k && cleanStr v
  | .pillarRegex k p _ => cleanStr k && cleanStr p

/-- Cut a list into successive chunks of `n` elements (the last one
shorter); both RSA loops of `pemutil` (part_013) walk their input this way
(`for offset := 0; offset < len; offset += n`). -/
def chunkList (n : Nat) (l : List α) : List (List α) :=
  if _h1 : n = 0 then []
  else if h2 : l.length = 0 then []
  else l.take n :: chunkList n (l.drop n)
termination_by l.length
decreasing_by
  simp only [List.length_drop]
  exact Nat.sub_lt (Nat.pos_of_ne_zero h2) (Nat.pos_of_ne_zero _h1)

/-- Embedding of `pemutil.encryptChunks`: encrypt successive chunks of
`keysize − 11` bytes and concatenate.  `enc` is `rsa.EncryptPKCS1v15` under
the parsed public key (external); `pubSize` is `pub.Size()`. -/
def encryptChunks (enc : List Nat → List Nat) (pubSize : Nat) (data : List Nat) : List Nat :=
  ((chunkList (pubSize - 11) data).map enc).flatten

/-- Embedding of `pemutil.EncodeByRSA` (part_013, chunked version): the
PEM/X509 parsing of the key is external and elided (the claim quantifies
over valid key pairs); what remains is exactly `encryptChunks`. -/
def encodeByRSA (enc : List Nat → List Nat) (pubSize : Nat) (plaintext : List Nat) : List Nat :=
  encryptChunks enc pubSize plaintext

/-- Embedding of `pemutil.DecodeByRSA` (part_013, chunked version): decrypt
successive chunks of `priv.Size()` bytes, abort on the first failure,
concatenate.  `dec` is `rsa.DecryptPKCS1v15` under the parsed private key. -/
def decodeByRSA (dec : List Nat → Option (List Nat)) (privSize : Nat)
    (ciphertext : List Nat) : Option (List Nat) :=
  ((chunkList privSize ciphertext).mapM dec).map List.flatten

/-- Embedding of `types.MinionState` (the on-disk state strings). -/
inductive MinionState
  | unaccepted
  | accepted
  | autoSign
  | denied
  | rejected
deriving DecidableEq

/-- Embedding of `types.Minion`.  The identity fields not consulted by any
embedded operation (uid, hostname, os, arch, version, tags, the online
timestamp) are carried by `rest`, an opaque payload every operation copies
unchanged — this is what makes "the identity JSON is rewritten" observable. -/
structure Minion where
  name : String
  ip : String := ""
  registryTimestamp : Int := 0
  offlineTimestamp : Int := 0
  rest : List String := []
deriving DecidableEq

/-- Embedding of `pemutil.RsaPair` (PEM bytes of the pair). -/
structure RsaPair where
  priv : List Nat
  pub : List Nat
deriving DecidableEq

/-- Embedding of `types.MinionKey` (identity + public key + state; the Go
field holds the state's string form). -/
structure MinionKey where
  minion : Minion
  pubKey : List Nat
  state : MinionState
deriving DecidableEq

/-- The canonical per-minion directory `minions/<name>`: `state` file,
`minion` identity JSON, `minion.pub` key file (absent file = `none`). -/
structure MinionDir where
  stateFile : Option MinionState := none
  minionJson : Option Minion := none
  pubKeyFile : Option (List Nat) := none
deriving DecidableEq

/-- The five per-state name sets (used both for the in-memory
`minionCache` and for the five symlink bucket directories). -/
structure MinionCache where
  pre : Finset String
  acc : Finset String
  auto : Finset String
  den : Finset String
  rej : Finset String
deriving DecidableEq

/-- The set a state selects (`parseState`'s bucket mapping). -/
def cacheGet (c : MinionCache) : MinionState → Finset String
  | .unaccepted => c.pre
  | .accepted => c.acc
  | .autoSign => c.auto
  | .denied => c.den
  | .rejected => c.rej

/-- Insert a name into the set of one state. -/
def cacheInsert (c : MinionCache) (s : MinionState) (n : String) : MinionCache :=
  match s with
  | .unaccepted => { c with pre := insert n c.pre }
  | .accepted => { c with acc := insert n c.acc }
  | .autoSign => { c with auto := insert n c.auto }
  | .denied => { c with den := insert n c.den }
  | .rejected => { c with rej := insert n c.rej }

/-- Remove a name from the set of one state. -/
def cacheErase (c : MinionCache) (s : MinionState) (n : String) : MinionCache :=
  match s with
  | .unaccepted => { c with pre := c.pre.erase n }
  | .accepted => { c with acc := c.acc.erase n }
  | .autoSign => { c with auto := c.auto.erase n }
  | .denied => { c with den := c.den.erase n }
  | .rejected => { c with rej := c.rej.erase n }

/-- Association-list lookup (Go map / haxmap read). -/
def assocLookup {α : Type} : List (String × α) → String → Option α
  | [], _ => none
  | (k, v) :: rest, n => if k = n then some v else assocLookup rest n

/-- Association-list write (Go map / haxmap set). -/
def assocSet {α : Type} : List (String × α) → String → α → List (String × α)
  | [], n, d => [(n, d)]
  | (k, v) :: rest, n, d =>
    if k = n then (n, d) :: rest else (k, v) :: assocSet rest n d

/-- Association-list delete (Go map / haxmap delete). -/
def assocErase {α : Type} : List (String × α) → String → List (String × α)
  | [], _ => []
  | (k, v) :: rest, n => if k = n then assocErase rest n else (k, v) :: assocErase rest n

/-- Embedding of `master.Storage` (internal/master/storage.go): the master
RSA pair, the canonical minion directories, the in-memory per-state cache
and the five symlink buckets.  Filesystem reads and writes themselves never
fail in the embedding (their Go failure paths are IO errors outside the
contract the claims describe). -/
structure StorageState where
  pair : RsaPair
  dirs : List (String × MinionDir)
  cache : MinionCache
  buckets : MinionCache
deriving DecidableEq

/-- Error kinds of the embedded operations (api/errors kinds plus the
embedding's surrogates, see the uses). -/
inductive ApiErr
  | notFound
  | badRequest
  | alreadyExists
  | fsError
  | timeout
  | outOfIds
deriving DecidableEq

/-- Embedding of `Storage.getUpdate`: read `minions/<name>/state`; a missing
file is the api not-found error. -/
def getUpdate (st : StorageState) (n : String) : Except ApiErr MinionState :=
  match (assocLookup st.dirs n).bind MinionDir.stateFile with
  | some s => .ok s
  | none => .error .notFound

/-- Embedding of `Storage.setUpdate`: overwrite `minions/<name>/state`. -/
def setUpdate (st : StorageState) (n : String) (s : MinionState) : StorageState :=
  let d := ((assocLookup st.dirs n).getD {})
  { st with dirs := assocSet st.dirs n { d with stateFile := some s } }

/-- Embedding of `Storage.updateMinion`: overwrite the identity JSON
`minions/<name>/minion`. -/
def updateMinion (st : StorageState) (m : Minion) : StorageState :=
  let d := ((assocLookup st.dirs m.name).getD {})
  { st with dirs := assocSet st.dirs m.name { d with minionJson := some m } }

/-- The `minion.pub` write of `Storage.AddMinion`. -/
def writePubKey (st : StorageState) (n : String) (k : List Nat) : StorageState :=
  let d := ((assocLookup st.dirs n).getD {})
  { st with dirs := assocSet st.dirs n { d with pubKeyFile := some k } }

/-- Embedding of `Storage.getMinion`: read the identity JSON. -/
def getMinionRec (st : StorageState) (n : String) : Except ApiErr Minion :=
  match (assocLookup st.dirs n).bind MinionDir.minionJson with
  | some m => .ok m
  | none => .error .notFound

/-- The first-contact state computation shared by `Storage.AddMinion` and
`Storage.addMinion`: `state := Unaccepted; if autoSign → AutoSign;
if autoDenied → Denied` (the second test overwrites the first). -/
def firstContactState (autoSign autoDenied : Bool) : MinionState :=
  let s0 := MinionState.unaccepted
  let s1 := if autoSign then MinionState.autoSign else s0
  if autoDenied then MinionState.denied else s1

/-- Embedding of the private `Storage.addMinion` (the bucket symlink): when
the bucket link already exists, the otherwise-ignored `WriteFile` of the
bucket-path `state` file goes through the link into the canonical directory
and `Readlink` then matches, so the call returns; when it does not exist the
ignored write fails on the missing parent and the symlink is created. -/
def addMinionFS (st : StorageState) (id : String) (autoSign autoDenied : Bool) : StorageState :=
  let state := firstContactState autoSign autoDenied
  if id ∈ cacheGet st.buckets state then setUpdate st id state
  else { st with buckets := cacheInsert st.buckets state id }

/-- Embedding of `Storage.AddMinion` (upsert on first contact).  On the
not-found path the source stamps `RegistryTimestamp` on the caller's record
(so the returned `info.Minion` carries the stamp too), computes the state
from the policy flags, creates bucket link, public-key file, state file and
cache entry; on both paths it finally rewrites the identity JSON.  Returns
the Go `(info, err)` pair together with the updated storage. -/
def addMinion (st : StorageState) (minion : Minion) (pubKey : List Nat)
    (autoSign autoDenied : Bool) (now : Int) :
    Except ApiErr MinionKey × StorageState :=
  match getUpdate st minion.name with
  | .ok state =>
    let info : MinionKey := { minion := minion, pubKey := st.pair.pub, state := state }
    (.ok info, updateMinion st minion)
  | .error _ =>
    let minion' := { minion with registryTimestamp := now }
    let state := firstContactState autoSign autoDenied
    let info : MinionKey := { minion := minion', pubKey := st.pair.pub, state := state }
    let st1 := addMinionFS st minion'.name autoSign autoDenied
    let st2 := writePubKey st1 minion'.name pubKey
    let st3 := setUpdate st2 minion'.name state
    let st4 := { st3 with cache := cacheInsert st3.cache state minion'.name }
    (.ok info, updateMinion st4 minion')

/-- Embedding of the private `Storage.acceptMinion` (bucket relink): read
the previous state from the state file, create the accept-bucket link
(`os.Symlink` fails when the target name already exists), then remove the
old bucket link (`parseState` succeeds on all five states; a failing removal
is only logged). -/
def acceptMinionFS (st : StorageState) (id : String) : Except ApiErr StorageState :=
  match getUpdate st id with
  | .error e => .error e
  | .ok state =>
    if id ∈ st.buckets.acc then .error .fsError
    else
      let st1 := { st with buckets := { st.buckets with acc := insert id st.buckets.acc } }
      .ok { st1 with buckets := cacheErase st1.buckets state id }

/-- Embedding of `Storage.AcceptMinion`: probe Unaccepted, then (optionally)
Rejected, then (optionally) Denied in the in-memory cache, removing the name
from the set it is found in; an unfound name fails not-found with nothing
mutated.  On success the name is added to the Accepted set, the bucket is
relinked, the state file rewritten (event publication elided).  The result
pairs the Go error with the state after the call. -/
def acceptMinionOp (st : StorageState) (name : String)
    (includeRejected includeDenied : Bool) : Except ApiErr Unit × StorageState :=
  let c := st.cache
  let probe : Bool × MinionCache :=
    if name ∈ c.pre then (true, { c with pre := c.pre.erase name })
    else
      let probeR : Bool × MinionCache :=
        if includeRejected then
          if name ∈ c.rej then (true, { c with rej := c.rej.erase name })
          else (false, c)
        else (false, c)
      if ¬ probeR.1 && includeDenied then
        if name ∈ probeR.2.den then (true, { probeR.2 with den := probeR.2.den.erase name })
        else (false, probeR.2)
      else probeR
  if ¬ probe.1 then (.error .notFound, { st with cache := probe.2 })
  else
    let st1 := { st with cache := { probe.2 with acc := insert name probe.2.acc } }
    match acceptMinionFS st1 name with
    | .error e => (.error e, st1)
    | .ok st2 => (.ok (), setUpdate st2 name .accepted)

/-- Embedding of `types.ResultType` (proto enum; `Skip` is the zero
value, which is what a fabricated zero `CallResponse` carries). -/
inductive ResultType
  | resultSkip
  | resultOk
  | resultError
deriving DecidableEq

/-- Embedding of `types.EventType` (proto enum; `Connect` is the zero
value, so the zero `DispatchResponse` is tagged with it). -/
inductive EventType
  | eventConnect
  | eventCall
deriving DecidableEq

/-- Embedding of `types.CallRequest`. -/
structure CallRequest where
  id : Nat := 0
  function : String := ""
  args : List String := []
  timeout : Int := 0
  options : SelectionOptions := {}
deriving DecidableEq

/-- Embedding of `types.CallResponse`. -/
structure CallResponse where
  id : Nat := 0
  type : ResultType := .resultSkip
  retCode : Int := 0
  result : List Nat := []
  error : String := ""
deriving DecidableEq

/-- Embedding of `pb.DispatchCallMsg`: `{id, data, error}` with the id in
clear and `data` the RSA-encrypted MsgPack payload. -/
structure DispatchCallMsg where
  id : Nat := 0
  data : List Nat := []
  error : String := ""
deriving DecidableEq

/-- Embedding of `pb.DispatchRequest` (minion→master frame). -/
structure DispatchRequest where
  type : EventType := .eventConnect
  call : Option DispatchCallMsg := none
deriving DecidableEq

/-- Embedding of `pb.DispatchResponse` (master→minion frame). -/
structure DispatchResponse where
  type : EventType := .eventConnect
  call : Option DispatchCallMsg := none
deriving DecidableEq

/-- Embedding of `types.ConnectRequest` (first frame of a stream): the
minion identity and the minion's public key PEM. -/
structure ConnectRequest where
  minion : Minion
  minionPublicKey : List Nat
deriving DecidableEq

/-- Embedding of the internal `message` a pipe pushes to the scheduler. -/
structure SchedMessage where
  id : Nat := 0
  name : String := ""
  done : Bool := false
  err : Option String := none
  call : Option CallResponse := none
deriving DecidableEq

/-- Embedding of `master.pipe` (part_003): owner name, cached ip and
groups, the master RSA pair and the `pubKey` the send path encrypts under
(stream handle, channel and stop signal are runtime plumbing). -/
structure PipeInfo where
  name : String
  ip : String := ""
  groups : List String := []
  rsaPair : RsaPair
  pubKey : List Nat
deriving DecidableEq

/-- Embedding of `master.Request`. -/
structure SchedRequest where
  call : Option CallRequest := none
deriving DecidableEq

/-- Embedding of `pipe.send` (part_003): MsgPack-encode the call (`mp`,
external), RSA-encrypt under `p.pubKey` (`rsaEnc key plain`, external,
i.e. `pemutil.EncodeByRSA(b, p.pubKey)`), and frame it with the call id in
clear; with no call the zero frame is sent.  Encoder failures and transport
errors are not modelled. -/
def pipeSend (mp : CallRequest → List Nat) (rsaEnc : List Nat → List Nat → List Nat)
    (p : PipeInfo) (inp : SchedRequest) : DispatchResponse :=
  match inp.call with
  | some call =>
    { type := .eventCall
      call := some { id := call.id, data := rsaEnc p.pubKey (mp call) } }
  | none => {}

/-- Embedding of the per-frame handling of `pipe.start` (part_003) for one
received frame: the messages pushed to the scheduler channel.  A reply whose
`error` field is non-empty yields a `done` message carrying the call id (and
the loop continues); a decrypt or decode failure yields an `err` message;
otherwise the decoded response is forwarded.  `rsaDec` is
`pemutil.DecodeByRSA(·, master private key)` and `mpDec` the MsgPack decode,
both returning the Go error text on failure. -/
def pipeOnFrame (rsaDec : List Nat → Except String (List Nat))
    (mpDec : List Nat → Except String CallResponse) (p : PipeInfo)
    (req : DispatchRequest) : List SchedMessage :=
  match req.type with
  | .eventConnect => []
  | .eventCall =>
    match req.call with
    | none => []
    | some msg =>
      if msg.error ≠ "" then [{ id := msg.id, name := p.name, done := true }]
      else match rsaDec msg.data with
      | .error e => [{ id := msg.id, name := p.name, err := some e }]
      | .ok b =>
        match mpDec b with
        | .error e => [{ id := msg.id, name := p.name, err := some e }]
        | .ok callRsp => [{ id := msg.id, name := p.name, call := some callRsp }]

/-- Embedding of `jobPack`. -/
structure JobPack where
  name : String
  call : Option CallResponse := none
deriving DecidableEq

/-- Embedding of `types.ReportItem`. -/
structure ReportItem where
  minion : String
  result : Bool := false
  error : String := ""
  data : List Nat := []
deriving DecidableEq

/-- Embedding of `types.ReportSummary`. -/
structure ReportSummary where
  total : Nat := 0
deriving DecidableEq

/-- Embedding of `types.Report`. -/
structure Report where
  items : List ReportItem := []
  summary : ReportSummary := {}
deriving DecidableEq

/-- Embedding of `task.execute` (part_003) over the finite sequence of
packs the task's channel delivers before the context deadline (an exhausted
sequence is the deadline firing, returning the context error).  Each pack
bumps `gets`; a nil call skips straight to the next receive; otherwise an
item is appended (success iff the result type is `Ok`) and the task
completes when `gets ≥ total`. -/
def taskExecute (total : Nat) : Nat → Report → List JobPack → Except ApiErr Report
  | _, _, [] => .error .timeout
  | gets, report, p :: rest =>
    let gets' := gets + 1
    match p.call with
    | none => taskExecute total gets' report rest
    | some call =>
      let item : ReportItem :=
        { minion := p.name
          error := call.error
          data := call.result
          result := call.type = ResultType.resultOk }
      let report' := { report with items := report.items ++ [item] }
      if gets' ≥ total then .ok report'
      else taskExecute total gets' report' rest

/-- Embedding of `idAllocator` (part_003): a 64-bit counter and the set of
outstanding ids. -/
structure IdAlloc where
  used : Finset Nat
  next : Nat
deriving DecidableEq

/-- The loop of `idAllocator.Get`: mask the counter to 31 bits, bump the
counter (wrapping as uint64), skip 0 and ids in use.  The Go loop is
unbounded; the embedding carries fuel, and `allocGet` supplies one full pass
of the id space (`none` = the loop found no free id within the fuel). -/
def allocGetLoop : Nat → IdAlloc → Option (Nat × IdAlloc)
  | 0, _ => none
  | fuel + 1, a =>
    let id := a.next % 2 ^ 31
    let a' : IdAlloc := { a with next := (a.next + 1) % 2 ^ 64 }
    if id = 0 then allocGetLoop fuel a'
    else if id ∈ a.used then allocGetLoop fuel a'
    else some (id, { a' with used := insert id a.used })

/-- Embedding of `idAllocator.Get`. -/
def allocGet (a : IdAlloc) : Option (Nat × IdAlloc) :=
  allocGetLoop (2 ^ 31) a

/-- Embedding of `idAllocator.Free`: `none` is the
`panic("free of unused pipe ID")`. -/
def allocFree (a : IdAlloc) (id : Nat) : Option IdAlloc :=
  if id ∈ a.used then some { a with used := a.used.erase id } else none

/-- Embedding of `master.Scheduler` (part_003): live pipes, eligible and
offline minion sets, the storage, the id allocator and the task table (only
membership of a call id matters to the event loop — the aggregation state is
owned by the `HandleCall` invocation). -/
structure SchedState where
  pipes : List (String × PipeInfo)
  minions : Finset String
  downMinions : Finset String
  storage : StorageState
  idAlloc : IdAlloc
  taskStore : Finset Nat
deriving DecidableEq

/-- Embedding of `Scheduler.AddStream` (part_003): reject a duplicate name;
upsert the minion with the hard-coded policy `autoSign = false,
autoDenied = true` (the config read is a TODO in the source); build the pipe
with the master pair — and `pubKey := pair.Public`, the **master's own
public key** — insert it, and update the eligible/offline sets. -/
def addStreamOp (st : SchedState) (inp : ConnectRequest) (now : Int) :
    Except ApiErr (PipeInfo × MinionKey) × SchedState :=
  let name := inp.minion.name
  if (assocLookup st.pipes name).isSome then (.error .alreadyExists, st)
  else
    let autoSign := false
    let autoDenied := true
    match addMinion st.storage inp.minion inp.minionPublicKey autoSign autoDenied now with
    | (.error e, stor') => (.error e, { st with storage := stor' })
    | (.ok info, stor') =>
      let state := info.state
      let pair := stor'.pair
      let p : PipeInfo :=
        { name := name, ip := info.minion.ip, groups := []
          rsaPair := pair, pubKey := pair.pub }
      let st1 := { st with storage := stor', pipes := assocSet st.pipes name p }
      let st2 :=
        if state = MinionState.accepted ∨ state = MinionState.autoSign
        then { st1 with minions := insert name st1.minions } else st1
      let st3 := { st2 with downMinions := st2.downMinions.erase name }
      (.ok (p, info), st3)

/-- Embedding of `Scheduler.removePipe` (part_003): panics (`none`) on an
empty name; otherwise drop the pipe, mark the minion offline and stamp
`OfflineTimestamp` through the storage when the identity JSON exists. -/
def removePipeOp (st : SchedState) (name : String) (now : Int) : Option SchedState :=
  if name = "" then none
  else
    let st1 := { st with pipes := assocErase st.pipes name }
    let st2 := { st1 with downMinions := insert name st1.downMinions }
    match getMinionRec st2.storage name with
    | .ok m =>
      some { st2 with storage := updateMinion st2.storage { m with offlineTimestamp := now } }
    | .error _ => some st2

/-- Embedding of the pipe-message arm of `Scheduler.Run` (part_003): a
`done` message removes the pipe; otherwise the effective response is the
carried one (or a fabricated zero response with the message id), stamped
`ResultError` when the message carries an error, and the task with that id —
when present — is notified: the returned `Option` is the
`(call id, minion name, response)` notification delivered, `none` when the
id is unknown (silently dropped) or the pipe was removed. -/
def runStep (st : SchedState) (m : SchedMessage) (now : Int) :
    Option (SchedState × Option (Nat × String × CallResponse)) :=
  if m.done then (removePipeOp st m.name now).map (fun st' => (st', none))
  else
    let msg0 := m.call.getD { id := m.id }
    let msg1 :=
      match m.err with
      | some e => { msg0 with type := ResultType.resultError, error := e }
      | none => msg0
    let notif := if m.id ∈ st.taskStore then some (m.id, m.name, msg1) else none
    some (st, notif)

/-- Embedding of `Scheduler.selectPipe` (part_003): its body is commented
out in the source; it returns the empty slice and no error. -/
def selectPipe (_st : SchedState) (_options : SelectionOptions) : List PipeInfo :=
  []

/-- Embedding of `Scheduler.HandleCall` (part_003).  `packs` is the finite
sequence of notifications the task's channel would deliver before the
deadline.  The source allocates an id (the unbounded Go loop is given one
full pass of fuel; `outOfIds` is the surrogate for spinning forever), builds
an empty report, leaves `targets` empty — the code filling it from the
request is commented out — and therefore always returns the bad-request
`"no targets"` before dispatching; the deferred `Free` releases the id.  The
dead code past that return (select pipes, insert the task, send, execute,
drop the task) is embedded for completeness. -/
def handleCall (st : SchedState) (inp : CallRequest) (packs : List JobPack) :
    Except ApiErr Report × SchedState :=
  match allocGet st.idAlloc with
  | none => (.error .outOfIds, st)
  | some (nextId, alloc1) =>
    let report : Report := {}
    let inp' := { inp with id := nextId }
    let targets : List String := []
    if targets.isEmpty then
      (.error .badRequest, { st with idAlloc := (allocFree alloc1 nextId).getD alloc1 })
    else
      let total : Nat := 0
      let _pipes := selectPipe { st with idAlloc := alloc1 } inp'.options
      let st1 := { st with idAlloc := alloc1, taskStore := insert nextId st.taskStore }
      match taskExecute total 0 report packs with
      | .error e => (.error e, { st1 with idAlloc := (allocFree alloc1 nextId).getD alloc1 })
      | .ok report' =>
        let st2 := { st1 with taskStore := st1.taskStore.erase nextId }
        (.ok report', { st2 with idAlloc := (allocFree alloc1 nextId).getD alloc1 })

deriving instance DecidableEq for Except

/-! Concrete instances used by witnesses and counterexamples. -/

/-- An empty minion cache / bucket family. -/
def cacheNone : MinionCache := ⟨∅, ∅, ∅, ∅, ∅⟩

/-- A fresh storage: a master pair and no minions on disk. -/
def stEmpty : StorageState :=
  { pair := ⟨[3], [4]⟩, dirs := [], cache := cacheNone, buckets := cacheNone }

/-- A freshly constructed scheduler over `stEmpty`. -/
def sched0 : SchedState :=
  { pipes := [], minions := ∅, downMinions := ∅, storage := stEmpty
    idAlloc := ⟨∅, 1⟩, taskStore := ∅ }

/-- A minion identity. -/
def m1c : Minion := { name := "m1" }

/-- A connect request whose minion public key `[9, 9]` differs from the
master public key `[4]` of `stEmpty`. -/
def connect0 : ConnectRequest := { minion := m1c, minionPublicKey := [9, 9] }

/-- The pipe `addStreamOp sched0 connect0 5` builds. -/
def pipeX : PipeInfo :=
  { name := "m1", ip := "", groups := [], rsaPair := ⟨[3], [4]⟩, pubKey := [4] }

/-- The minion key `addStreamOp sched0 connect0 5` returns. -/
def infoX : MinionKey :=
  { minion := { name := "m1", registryTimestamp := 5 }, pubKey := [4], state := .denied }

/-- The scheduler state after `addStreamOp sched0 connect0 5`. -/
def stX : SchedState :=
  { pipes := [("m1", pipeX)], minions := ∅, downMinions := ∅
    storage :=
      { pair := ⟨[3], [4]⟩
        dirs := [("m1",
          { stateFile := some .denied
            minionJson := some { name := "m1", registryTimestamp := 5 }
            pubKeyFile := some [9, 9] })]
        cache := { cacheNone with den := {"m1"} }
        buckets := { cacheNone with den := {"m1"} } }
    idAlloc := ⟨∅, 1⟩, taskStore := ∅ }

/-- The toy block cipher of the `C5` witness: a length byte, the chunk, zero
padding to 16 bytes (standing in for a concrete RSA primitive of block size
16 on plaintexts of at most 5 bytes). -/
def toyEnc (m : List Nat) : List Nat :=
  (m.length :: m) ++ List.replicate (15 - m.length) 0

/-- Inverse of `toyEnc`. -/
def toyDec (c : List Nat) : Option (List Nat) :=
  match c with
  | len :: rest => some (rest.take len)
  | [] => none

/-- A live pipe for minion `m1`. -/
def pipeM1 : PipeInfo := { name := "m1", rsaPair := ⟨[3], [4]⟩, pubKey := [4] }

/-- A `Call` reply frame whose error field is non-empty. -/
def frameErr : DispatchRequest :=
  { type := .eventCall, call := some { id := 7, data := [], error := "refused" } }

/-- Decoders that always fail (never reached on the error-frame path). -/
def rsaDecFail : List Nat → Except String (List Nat) := fun _ => .error "x"

/-- See `rsaDecFail`. -/
def mpDecFail : List Nat → Except String CallResponse := fun _ => .error "x"

/-- A scheduler with the pipe `m1` attached and a task for call id 7. -/
def schedPipe : SchedState :=
  { pipes := [("m1", pipeM1)], minions := ∅, downMinions := ∅, storage := stEmpty
    idAlloc := ⟨∅, 1⟩, taskStore := {7} }

/-- The state the `state` file records for a name (`none` = unknown name). -/
def nameState (st : StorageState) (n : String) : Option MinionState :=
  (assocLookup st.dirs n).bind MinionDir.stateFile

/-- The trust-store consistency invariant (spec §3), localized to one name:
each in-memory per-state set holds the name exactly when its `state` file
says so, and the accept bucket agrees with the accept set.  (Every operation
of the embedding only touches the sets at the name operated on, so the local
invariant is all the theorems need.) -/
def consistentAt (st : StorageState) (n : String) : Prop :=
  (n ∈ st.cache.pre ↔ nameState st n = some .unaccepted) ∧
  (n ∈ st.cache.acc ↔ nameState st n = some .accepted) ∧
  (n ∈ st.cache.auto ↔ nameState st n = some .autoSign) ∧
  (n ∈ st.cache.den ↔ nameState st n = some .denied) ∧
  (n ∈ st.cache.rej ↔ nameState st n = some .rejected) ∧
  (n ∈ st.buckets.acc ↔ n ∈ st.cache.acc)

/-- A consistent storage holding the single minion `m1`, unaccepted. -/
def stW : StorageState :=
  { pair := ⟨[3], [4]⟩
    dirs := [("m1", { stateFile := some .unaccepted })]
    cache := { cacheNone with pre := {"m1"} }
    buckets := { cacheNone with pre := {"m1"} } }

/-- A target with id `node1` and no other facts. -/
def tgtNode1 : Target := ⟨['n', 'o', 'd', 'e', '1'], [], [], [], []⟩

/-- The options built by `WithHosts("node1")` then `WithHosts("other", false)`,
i.e. the selection text `node1 or other`. -/
def orOptions : SelectionOptions :=
  buildOptions [.hosts ['n', 'o', 'd', 'e', '1'] [], .hosts ['o', 't', 'h', 'e', 'r'] [false]]

/-- A `term (conn term)*` selection sequence: the first term followed by
connective/term pairs (`true` = `and`, `false` = `or`). -/
def seqWithConns (t0 : Selection) (rest : List (Bool × Selection)) : List Selection :=
  t0 :: (rest.map (fun ct => [if ct.1 then selAnd else selOr, ct.2])).flatten

/-- The accumulator step that characterizes what `MatchTarget` actually
computes on a `term (conn term)*` sequence of id-deciding terms: the
accumulator is `(running result, value of the most recent term)`; each
connective combines the running result with the *preceding* term's value and
the following term replaces the second component. -/
def connFoldStep (ext : ExtOracle) (tgt : Target) (acc : Bool × Bool)
    (ct : Bool × Selection) : Bool × Bool :=
  (if ct.1 then acc.1 && acc.2 else acc.1 || acc.2, (matchId ext ct.2 tgt.id).1)

/-- The selection element a constructor appends. -/
def ctorSel : Ctor → Selection
  | .hosts h _ => { hosts := [h] }
  | .list hs _ => { hosts := hs }
  | .hostRegex p _ => { hostPcre := p }
  | .range r _ => { idRange := r }
  | .hostGroup gs _ => { hostGroups := gs }
  | .ipCidr c _ => { ipCidr := c }
  | .grains k v _ => { grains := some ⟨k, v⟩ }
  | .grainsRegex k p _ => { grainsPcre := some ⟨k, p⟩ }
  | .pillar k v _ => { pillar := some ⟨k, v⟩ }
  | .pillarRegex k p _ => { pillarPcre := some ⟨k, p⟩ }

/-- The variadic logic argument of a constructor. -/
def ctorLg : Ctor → List Bool
  | .hosts _ lg => lg
  | .list _ lg => lg
  | .hostRegex _ lg => lg
  | .range _ lg => lg
  | .hostGroup _ lg => lg
  | .ipCidr _ lg => lg
  | .grains _ _ lg => lg
  | .grainsRegex _ _ lg => lg
  | .pillar _ _ lg => lg
  | .pillarRegex _ _ lg => lg

/-- The connective element a (non-first) constructor inserts. -/
def connOf (c : Ctor) : Selection :=
  if andFlagOf (ctorLg c) then selAnd else selOr

/-- The options built by `WithRange("a:b")`: its textual form `R@a:b`
re-parses with the piece before the colon swallowed as a key. -/
def cexRange1 : SelectionOptions := buildOptions [.range ['a', ':', 'b'] []]

/-- The options built by `WithRange(" a")`: the space inside the argument
splits its textual form `R@ a` into two tokens. -/
def cexRange2 : SelectionOptions := buildOptions [.range [' ', 'a'] []]

end Maco

namespace Maco

/-! Association-list and cache helper lemmas. -/

theorem assocLookup_set_self {α : Type} (l : List (String × α)) (n : String) (d : α) :
    assocLookup (assocSet l n d) n = some d := by
  induction l with
  | nil => simp [assocSet, assocLookup]
  | cons kv rest ih =>
    obtain ⟨k, v⟩ := kv
    by_cases hk : k = n
    · simp [assocSet, hk, assocLookup]
    · simp [assocSet, hk, assocLookup, ih]

/-! ### Claim C10 — a bare id-range term without `%` matches every id -/

/-- Claim C10: for every `Selection` that is a bare id-range term (no hosts,
no host regex) whose `IdRange` is non-empty with neither a leading nor a
trailing `%`, `MatchId` returns `matched = true` and `hit = true` for every
id: such a term matches all targets regardless of the pattern text. -/
theorem matchId_bare_range_matches_all (ext : ExtOracle) (s : Selection) (id : Str)
    (h1 : s.hosts = []) (h2 : s.hostPcre = []) (h3 : s.idRange ≠ [])
    (h4 : s.idRange.head? ≠ some '%') (h5 : s.idRange.getLast? ≠ some '%') :
    matchId ext s id = (true, true) := by
  unfold matchId
  simp [h1, h2, h3, h4, h5]

/-- Witness for C10 at the concrete bare range term `R@abc` and id `zzz`
(the trivial oracle is never consulted on this input: the host-regex branch
is not taken). -/
theorem matchId_bare_range_matches_all_witness :
    matchId extTrivial { idRange := ['a', 'b', 'c'] } ['z', 'z', 'z'] = (true, true) :=
  matchId_bare_range_matches_all extTrivial { idRange := ['a', 'b', 'c'] } ['z', 'z', 'z']
    rfl rfl (by decide) (by decide) (by decide)

/-! ### Claim C9 — id allocator invariants -/

/-- What one successful pass of the `Get` loop guarantees: the id is in
`[1, 2^31)`, was not outstanding, and is outstanding afterwards. -/
theorem allocGetLoop_spec (fuel : Nat) :
    ∀ a id a', allocGetLoop fuel a = some (id, a') →
      1 ≤ id ∧ id < 2 ^ 31 ∧ id ∉ a.used ∧ a'.used = insert id a.used := by
  induction fuel with
  | zero => intro a id a' h; simp [allocGetLoop] at h
  | succ n ih =>
    intro a id a' h
    simp only [allocGetLoop] at h
    by_cases h0 : a.next % 2 ^ 31 = 0
    · rw [if_pos h0] at h
      exact ih ⟨a.used, (a.next + 1) % 2 ^ 64⟩ id a' h
    · rw [if_neg h0] at h
      by_cases hu : a.next % 2 ^ 31 ∈ a.used
      · rw [if_pos hu] at h
        exact ih ⟨a.used, (a.next + 1) % 2 ^ 64⟩ id a' h
      · rw [if_neg hu] at h
        simp only [Option.some.injEq, Prod.mk.injEq] at h
        obtain ⟨hid, ha'⟩ := h
        subst hid
        subst ha'
        exact ⟨Nat.one_le_iff_ne_zero.mpr h0, Nat.mod_lt _ (by norm_num), hu, rfl⟩

/-- Claim C9: every id `Get` returns lies in `[1, 2^31)`; an id returned
while outstanding is never returned again (two consecutive successful `Get`s
yield distinct ids); `Free` of an id not outstanding panics (`none`), and of
an outstanding id removes it. -/
theorem idAllocator_invariants :
    (∀ fuel a id a', allocGetLoop fuel a = some (id, a') →
       1 ≤ id ∧ id < 2 ^ 31 ∧ id ∉ a.used ∧ a'.used = insert id a.used)
  ∧ (∀ fuel fuel' a id a' id' a'', allocGetLoop fuel a = some (id, a') →
       allocGetLoop fuel' a' = some (id', a'') → id' ≠ id)
  ∧ (∀ a id, id ∉ a.used → allocFree a id = none)
  ∧ (∀ a id, id ∈ a.used → allocFree a id = some { a with used := a.used.erase id }) := by
  refine ⟨allocGetLoop_spec, ?_, ?_, ?_⟩
  · intro fuel fuel' a id a' id' a'' h1 h2
    obtain ⟨_, _, _, hins⟩ := allocGetLoop_spec fuel a id a' h1
    obtain ⟨_, _, hfresh, _⟩ := allocGetLoop_spec fuel' a' id' a'' h2
    intro hEq
    exact hfresh (hins ▸ hEq ▸ Finset.mem_insert_self id a.used)
  · intro a id h
    simp [allocFree, h]
  · intro a id h
    simp [allocFree, h]

/-- Witness for C9: a concrete `Get` from a fresh allocator seeded at 5
returns 5 with the guaranteed properties, and `Free` of the unissued id 3
panics while `Free 5` removes it. -/
theorem idAllocator_invariants_witness :
    (1 ≤ 5 ∧ 5 < 2 ^ 31 ∧ 5 ∉ (⟨∅, 5⟩ : IdAlloc).used
       ∧ (⟨{5}, 6⟩ : IdAlloc).used = insert 5 (⟨∅, 5⟩ : IdAlloc).used)
  ∧ allocFree ⟨∅, 5⟩ 3 = none
  ∧ allocFree ⟨{5}, 6⟩ 5 = some { (⟨{5}, 6⟩ : IdAlloc) with used := ({5} : Finset Nat).erase 5 } :=
  ⟨idAllocator_invariants.1 1 ⟨∅, 5⟩ 5 ⟨{5}, 6⟩ (by decide),
   idAllocator_invariants.2.2.1 ⟨∅, 5⟩ 3 (by decide),
   idAllocator_invariants.2.2.2 ⟨{5}, 6⟩ 5 (by decide)⟩

/-! ### Claim C3 — `HandleCall` cannot complete successfully -/

/-- Claim C3 (code bug): `Scheduler.HandleCall` of part_003 never completes
successfully — the code that fills `targets` from the request is commented
out, so every call returns the bad-request `"no targets"` error (after an id
was allocated) before any minion is selected or any report item filled; the
claimed report-completeness property is unattainable because no call ever
reaches the success path. -/
theorem handleCall_never_ok :
    (∀ st inp packs r, (handleCall st inp packs).1 ≠ .ok r)
  ∧ (∀ st inp packs idp, allocGet st.idAlloc = some idp →
       (handleCall st inp packs).1 = .error .badRequest) := by
  constructor
  · intro st inp packs r
    unfold handleCall
    match h : allocGet st.idAlloc with
    | none => simp
    | some (nextId, alloc1) => simp [List.isEmpty]
  · intro st inp packs idp h
    obtain ⟨nextId, alloc1⟩ := idp
    unfold handleCall
    rw [h]
    simp [List.isEmpty]

/-- Witness for C3: a concrete call against a fresh scheduler — the
allocator hands out id 1 and the call fails with the bad-request error. -/
theorem handleCall_never_ok_witness :
    (handleCall sched0 { function := "echo", args := ["hi"], timeout := 5 } []).1 =
      .error .badRequest :=
  handleCall_never_ok.2 sched0 { function := "echo", args := ["hi"], timeout := 5 } []
    (1, ⟨{1}, 2⟩) (by decide)

/-! ### Claim C1 — which key the send path encrypts under -/

/-- `Storage.AddMinion` never touches the master pair. -/
theorem addMinion_pair (st : StorageState) (m : Minion) (pk : List Nat)
    (aS aD : Bool) (now : Int) : ((addMinion st m pk aS aD now).2).pair = st.pair := by
  unfold addMinion
  match h : getUpdate st m.name with
  | .ok s => simp [updateMinion]
  | .error e =>
    simp only [updateMinion, setUpdate, writePubKey, addMinionFS]
    split <;> rfl

/-- Claim C1 (code bug): every pipe `Scheduler.AddStream` (part_003) builds
carries `pubKey = pair.Public` — the **master's own** public key, not the
minion public key of the `ConnectRequest` — and `pipe.send` RSA-encrypts the
MsgPack-encoded call under exactly that key, transmitting the call id in
clear beside the ciphertext.  (The minion-side loop decrypts with the minion
private key, so traffic encrypted this way cannot be decrypted by its
receiver; the spec's statement is the evident intent.) -/
theorem addStream_encrypts_under_master_key (st : SchedState) (inp : ConnectRequest)
    (now : Int) (p : PipeInfo) (info : MinionKey) (st' : SchedState)
    (h : addStreamOp st inp now = (.ok (p, info), st')) :
    p.pubKey = st.storage.pair.pub ∧
    ∀ mp rsaEnc call,
      pipeSend mp rsaEnc p { call := some call } =
        { type := .eventCall
          call := some { id := call.id, data := rsaEnc st.storage.pair.pub (mp call)
                         error := "" } } := by
  have hpk : p.pubKey = st.storage.pair.pub := by
    unfold addStreamOp at h
    by_cases hdup : (assocLookup st.pipes inp.minion.name).isSome
    · simp [hdup] at h
    · simp only [hdup, Bool.false_eq_true, if_neg, ite_false] at h
      match hAdd : addMinion st.storage inp.minion inp.minionPublicKey false true now with
      | (.error e, stor') => rw [hAdd] at h; simp at h
      | (.ok info0, stor') =>
        rw [hAdd] at h
        simp only [Prod.mk.injEq, Except.ok.injEq] at h
        have hp : p = { name := inp.minion.name, ip := info0.minion.ip, groups := []
                        rsaPair := stor'.pair, pubKey := stor'.pair.pub } :=
          h.1.1.symm
        have hpair : stor'.pair = st.storage.pair := by
          have := addMinion_pair st.storage inp.minion inp.minionPublicKey false true now
          rw [hAdd] at this
          exact this
        rw [hp]
        exact congrArg RsaPair.pub hpair
  refine ⟨hpk, ?_⟩
  intro mp rsaEnc call
  simp [pipeSend, hpk]

/-- Witness for C1 at the concrete connection `connect0` (minion key
`[9, 9]`): the constructed pipe's encryption key equals the master public
key `[4]` of the storage — which differs from the minion's key carried in
the connect request. -/
theorem addStream_encrypts_under_master_key_witness :
    pipeX.pubKey = sched0.storage.pair.pub
    ∧ sched0.storage.pair.pub ≠ connect0.minionPublicKey :=
  ⟨(addStream_encrypts_under_master_key sched0 connect0 5 pipeX infoX stX (by decide)).1,
   by decide⟩

end Maco

namespace Maco

/-! ### Claim C5 — chunked RSA round-trip -/

/-- Flattening the chunks recovers the list. -/
theorem chunkList_flatten {α : Type} (n : Nat) (hn : n ≠ 0) (l : List α) :
    (chunkList n l).flatten = l := by
  refine chunkList.induct n (fun x => (chunkList n x).flatten = x) ?_ ?_ ?_ l
  · intro x h
    exact absurd h hn
  · intro x _ h2
    rw [chunkList, dif_neg hn, dif_pos h2]
    exact (List.length_eq_zero.mp h2).symm
  · intro x _ h2 ih
    rw [chunkList, dif_neg hn, dif_neg h2]
    simp only [List.flatten_cons, ih]
    exact List.take_append_drop n x

/-- Every chunk has at most the chunk size. -/
theorem chunkList_length_le {α : Type} (n : Nat) (l : List α) :
    ∀ c ∈ chunkList n l, c.length ≤ n := by
  refine chunkList.induct n (fun x => ∀ c ∈ chunkList n x, c.length ≤ n) ?_ ?_ ?_ l
  · intro x h
    rw [chunkList, dif_pos h]
    intro c hc
    simp at hc
  · intro x h1 h2
    rw [chunkList, dif_neg h1, dif_pos h2]
    intro c hc
    simp at hc
  · intro x h1 h2 ih
    rw [chunkList, dif_neg h1, dif_neg h2]
    intro c hc
    rcases List.mem_cons.mp hc with hc | hc
    · subst hc
      simpa using List.length_take_le n x
    · exact ih c hc

/-- Chunking a flattened list of exact-`k` blocks recovers the blocks. -/
theorem chunkList_of_flatten {α : Type} (k : Nat) (hk : k ≠ 0) :
    ∀ (ls : List (List α)), (∀ x ∈ ls, x.length = k) → chunkList k ls.flatten = ls := by
  intro ls
  induction ls with
  | nil =>
    intro _
    rw [List.flatten_nil, chunkList, dif_neg hk]
    exact dif_pos rfl
  | cons c rest ih =>
    intro hlen
    have hc : c.length = k := hlen c (List.mem_cons_self c rest)
    rw [List.flatten_cons, chunkList, dif_neg hk]
    have hne : (c ++ rest.flatten).length ≠ 0 := by
      simp only [List.length_append, hc]
      omega
    rw [dif_neg hne]
    have htake : (c ++ rest.flatten).take k = c := by
      rw [← hc]
      exact List.take_left c rest.flatten
    have hdrop : (c ++ rest.flatten).drop k = rest.flatten := by
      rw [← hc]
      exact List.drop_left c rest.flatten
    rw [htake, hdrop, ih (fun x hx => hlen x (List.mem_cons_of_mem c hx))]

/-- Chunkwise decryption of chunkwise-encrypted blocks succeeds blockwise. -/
theorem mapM_enc_dec {enc : List Nat → List Nat} {dec : List Nat → Option (List Nat)}
    (cs : List (List Nat)) (h : ∀ c ∈ cs, dec (enc c) = some c) :
    (cs.map enc).mapM dec = some cs := by
  induction cs with
  | nil => rfl
  | cons c rest ih =>
    simp only [List.map_cons, List.mapM_cons, h c (List.mem_cons_self c rest),
      ih (fun x hx => h x (List.mem_cons_of_mem c hx)), Option.pure_def, Option.bind_eq_bind,
      Option.some_bind]

/-- Claim C5: for every payload — the ones longer than `keysize − 11` bytes
included — `DecodeByRSA ∘ EncodeByRSA` is the identity, given an RSA
primitive of block size `k` that round-trips on single blocks of at most
`k − 11` bytes: the encrypt path processes the payload in `keysize − 11`
chunks, the decrypt path in `keysize` chunks, and the concatenations agree. -/
theorem rsa_chunked_roundtrip (enc : List Nat → List Nat)
    (dec : List Nat → Option (List Nat)) (k : Nat) (hk : 11 < k)
    (hlen : ∀ m : List Nat, m.length ≤ k - 11 → (enc m).length = k)
    (hrt : ∀ m : List Nat, m.length ≤ k - 11 → dec (enc m) = some m)
    (p : List Nat) :
    decodeByRSA dec k (encodeByRSA enc k p) = some p := by
  have hk0 : k ≠ 0 := by omega
  have hn0 : k - 11 ≠ 0 := by omega
  unfold decodeByRSA encodeByRSA encryptChunks
  have hchunks : ∀ c ∈ chunkList (k - 11) p, c.length ≤ k - 11 :=
    chunkList_length_le _ _
  have hlens : ∀ x ∈ (chunkList (k - 11) p).map enc, x.length = k := by
    intro x hx
    obtain ⟨c, hc, rfl⟩ := List.mem_map.mp hx
    exact hlen c (hchunks c hc)
  rw [chunkList_of_flatten k hk0 _ hlens,
    mapM_enc_dec _ (fun c hc => hrt c (hchunks c hc))]
  simp only [Option.map_some']
  rw [chunkList_flatten (k - 11) hn0 p]

/-- `toyEnc` blocks are 16 bytes for plaintexts of at most 5 bytes. -/
theorem toyEnc_length (m : List Nat) (hm : m.length ≤ 16 - 11) :
    (toyEnc m).length = 16 := by
  simp only [toyEnc, List.cons_append, List.length_cons, List.length_append,
    List.length_replicate]
  omega

/-- `toyDec` inverts `toyEnc` on single blocks. -/
theorem toyDec_toyEnc (m : List Nat) (_hm : m.length ≤ 16 - 11) :
    toyDec (toyEnc m) = some m := by
  simp only [toyEnc, List.cons_append, toyDec, Option.some.injEq]
  exact List.take_left m _

/-- Witness for C5: a 7-byte payload — longer than the 5-byte block
capacity, so it is split into two chunks — round-trips through the toy
16-byte block primitive. -/
theorem rsa_chunked_roundtrip_witness :
    decodeByRSA toyDec 16 (encodeByRSA toyEnc 16 [1, 2, 3, 4, 5, 6, 7]) =
      some [1, 2, 3, 4, 5, 6, 7] :=
  rsa_chunked_roundtrip toyEnc toyDec 16 (by norm_num) toyEnc_length toyDec_toyEnc
    [1, 2, 3, 4, 5, 6, 7]

/-! ### Claim C6 — first-contact state and identity rewrite -/

/-- Claim C6 counterexample: on first contact with *both* policy flags set,
the record is created in state `Denied`, not `AutoSign` — the `autoDenied`
test overwrites the `autoSign` one. -/
theorem addMinion_both_flags_cex :
    (addMinion stEmpty m1c [9] true true 0).1 =
      .ok { minion := m1c, pubKey := [4], state := .denied }
    ∧ MinionState.denied ≠ MinionState.autoSign :=
  ⟨by decide, by decide⟩

/-- Claim C6 (amended): on first contact the record is created with state
`Denied` when `auto_denied` is set, else `AutoSign` when `auto_sign` is set,
else `Unaccepted` (so `Denied` when both flags are set), with the registry
timestamp stamped; and the identity JSON is rewritten on every upsert,
whether or not the record already existed. -/
theorem addMinion_upsert_amended (st : StorageState) (m : Minion) (pk : List Nat)
    (aS aD : Bool) (now : Int) :
    (getUpdate st m.name = .error .notFound →
       (addMinion st m pk aS aD now).1 =
         .ok { minion := { m with registryTimestamp := now }, pubKey := st.pair.pub
               state := if aD then .denied else if aS then .autoSign else .unaccepted })
  ∧ (assocLookup ((addMinion st m pk aS aD now).2).dirs m.name).bind MinionDir.minionJson =
      some (match getUpdate st m.name with
            | .ok _ => m
            | .error _ => { m with registryTimestamp := now }) := by
  constructor
  · intro hfresh
    unfold addMinion
    rw [hfresh]
    cases aD <;> cases aS <;> rfl
  · match hg : getUpdate st m.name with
    | .ok s =>
      unfold addMinion
      rw [hg]
      simp only [updateMinion]
      rw [assocLookup_set_self]
      rfl
    | .error e =>
      unfold addMinion
      rw [hg]
      simp only [updateMinion]
      rw [assocLookup_set_self]
      rfl

/-- Witness for C6 (amended) at a fresh storage: with `auto_sign` unset and
`auto_denied` set the record is created `Denied` and the identity JSON holds
the stamped record. -/
theorem addMinion_upsert_amended_witness :
    (addMinion stEmpty m1c [9] false true 5).1 =
      .ok { minion := { m1c with registryTimestamp := 5 }, pubKey := stEmpty.pair.pub
            state := .denied }
    ∧ (assocLookup ((addMinion stEmpty m1c [9] false true 5).2).dirs m1c.name).bind
        MinionDir.minionJson = some { m1c with registryTimestamp := 5 } :=
  have h := addMinion_upsert_amended stEmpty m1c [9] false true 5
  ⟨h.1 (by decide), h.2⟩

/-! ### Claim C8 — reply frames with a non-empty error field -/

/-- Claim C8 counterexample: on the concrete reply frame for call id 7 with
error `"refused"`, the pipe emits a `done` message (no `err`, no response),
and the scheduler's event loop *removes the pipe* from the pipe table and
delivers *no* notification to task 7 — it does not treat the frame as a
`ResultError` response, and the pipe does not stay attached. -/
theorem errorFrame_cex :
    pipeOnFrame rsaDecFail mpDecFail pipeM1 frameErr =
      [{ id := 7, name := "m1", done := true }]
    ∧ runStep schedPipe { id := 7, name := "m1", done := true } 0 =
        some ({ schedPipe with pipes := [], downMinions := {"m1"} }, none) :=
  ⟨by decide, by decide⟩

/-- Claim C8 (amended): a reply frame whose error field is non-empty makes
the receive loop emit a `done` message carrying the call id (the loop itself
keeps reading); the event loop, on a `done` message, removes the pipe from
the pipe table and delivers no response — in particular no `ResultError`
item — to the task; the task table is untouched.  (Only decrypt/decode
failures on the receive path surface as a `ResultError`.) -/
theorem errorFrame_done_amended (rsaDec : List Nat → Except String (List Nat))
    (mpDec : List Nat → Except String CallResponse) (p : PipeInfo)
    (msg : DispatchCallMsg) (hmsg : msg.error ≠ "")
    (st : SchedState) (now : Int) (hname : p.name ≠ "") :
    pipeOnFrame rsaDec mpDec p { type := .eventCall, call := some msg } =
      [{ id := msg.id, name := p.name, done := true }]
    ∧ ∃ st', runStep st { id := msg.id, name := p.name, done := true } now = some (st', none)
        ∧ st'.pipes = assocErase st.pipes p.name
        ∧ st'.taskStore = st.taskStore := by
  constructor
  · simp [pipeOnFrame, hmsg]
  · simp only [runStep, removePipeOp, if_neg hname]
    match hg : getMinionRec st.storage p.name with
    | .ok m => exact ⟨_, rfl, rfl, rfl⟩
    | .error e => exact ⟨_, rfl, rfl, rfl⟩

/-- Witness for C8 (amended) at the concrete frame and scheduler of the
counterexample. -/
theorem errorFrame_done_amended_witness :
    pipeOnFrame rsaDecFail mpDecFail pipeM1
        { type := .eventCall, call := some { id := 7, data := [], error := "refused" } } =
      [{ id := 7, name := "m1", done := true }]
    ∧ ∃ st', runStep schedPipe { id := 7, name := "m1", done := true } 0 = some (st', none)
        ∧ st'.pipes = assocErase schedPipe.pipes "m1"
        ∧ st'.taskStore = schedPipe.taskStore :=
  errorFrame_done_amended rsaDecFail mpDecFail pipeM1
    { id := 7, data := [], error := "refused" } (by decide) schedPipe 0 (by decide)

end Maco

namespace Maco

/-! ### Claim C7 — `AcceptMinion` transition -/

/-- `getUpdate` through the `nameState` lens. -/
theorem getUpdate_eq (st : StorageState) (n : String) :
    getUpdate st n = (match nameState st n with
                      | some s => .ok s
                      | none => .error .notFound) := rfl

/-- Claim C7: under the per-name consistency invariant, `AcceptMinion`
succeeds exactly when the minion's current state is `Unaccepted`, or
`Rejected` with `include_rejected`, or `Denied` with `include_denied`; on
success the name moves into the Accepted set (and out of its source set,
state file updated); on any other state — `Accepted`, `AutoSign`, unknown
name included — it returns not-found with the whole storage (the in-memory
per-state sets in particular) unchanged. -/
theorem acceptMinion_transitions (st : StorageState) (name : String)
    (inclR inclD : Bool) (hc : consistentAt st name) :
    ((acceptMinionOp st name inclR inclD).1 = .ok () ↔
       (nameState st name = some .unaccepted
        ∨ (inclR = true ∧ nameState st name = some .rejected)
        ∨ (inclD = true ∧ nameState st name = some .denied)))
  ∧ ((acceptMinionOp st name inclR inclD).1 ≠ .ok () →
       (acceptMinionOp st name inclR inclD).1 = .error .notFound
     ∧ (acceptMinionOp st name inclR inclD).2 = st)
  ∧ ((acceptMinionOp st name inclR inclD).1 = .ok () →
       (acceptMinionOp st name inclR inclD).2.cache.acc = insert name st.cache.acc
     ∧ (acceptMinionOp st name inclR inclD).2.cache.pre = st.cache.pre.erase name
     ∧ (acceptMinionOp st name inclR inclD).2.cache.rej = st.cache.rej.erase name
     ∧ (acceptMinionOp st name inclR inclD).2.cache.den = st.cache.den.erase name
     ∧ (acceptMinionOp st name inclR inclD).2.cache.auto = st.cache.auto
     ∧ nameState (acceptMinionOp st name inclR inclD).2 name = some .accepted) := by
  obtain ⟨h1, h2, h3, h4, h5, h6⟩ := hc
  rcases hs : nameState st name with _ | s
  case none =>
    have hpre : name ∉ st.cache.pre := fun hm => by
      rw [hs] at h1
      simp at h1
      exact h1 hm
    have hrej : name ∉ st.cache.rej := fun hm => by
      rw [hs] at h5
      simp at h5
      exact h5 hm
    have hden : name ∉ st.cache.den := fun hm => by
      rw [hs] at h4
      simp at h4
      exact h4 hm
    have hres : acceptMinionOp st name inclR inclD = (.error .notFound, st) := by
      simp [acceptMinionOp, hpre, hrej, hden, ite_self]
    simp [hres, hs]
  case some =>
    cases s
    case unaccepted =>
      have hpre : name ∈ st.cache.pre := h1.mpr hs
      have hacc : name ∉ st.cache.acc := fun hm => by
        rw [hs] at h2
        simp at h2
        exact h2 hm
      have hbacc : name ∉ st.buckets.acc := fun hm => hacc (h6.mp hm)
      have hrej : name ∉ st.cache.rej := fun hm => by
        rw [hs] at h5
        simp at h5
        exact h5 hm
      have hden : name ∉ st.cache.den := fun hm => by
        rw [hs] at h4
        simp at h4
        exact h4 hm
      have hres : acceptMinionOp st name inclR inclD =
          (.ok (), setUpdate
            { st with
              cache := { st.cache with
                           pre := st.cache.pre.erase name
                           acc := insert name st.cache.acc }
              buckets := cacheErase
                { st.buckets with acc := insert name st.buckets.acc }
                MinionState.unaccepted name }
            name MinionState.accepted) := by
        have hs' : (assocLookup st.dirs name).bind MinionDir.stateFile
            = some MinionState.unaccepted := hs
        simp [acceptMinionOp, hpre, acceptMinionFS, getUpdate, hs', hbacc, cacheErase]
      refine ⟨?_, ?_, ?_⟩
      · simp [hres, hs]
      · intro hne
        exact absurd (by simp [hres]) hne
      · intro _
        refine ⟨?_, ?_, ?_, ?_, ?_, ?_⟩
        · simp [hres, setUpdate, cacheErase]
        · simp [hres, setUpdate, cacheErase]
        · simp [hres, setUpdate, cacheErase, Finset.erase_eq_of_not_mem hrej]
        · simp [hres, setUpdate, cacheErase, Finset.erase_eq_of_not_mem hden]
        · simp [hres, setUpdate, cacheErase]
        · simp [hres, nameState, setUpdate, assocLookup_set_self]
    case accepted =>
      have hpre : name ∉ st.cache.pre := fun hm => by
        rw [hs] at h1; simp at h1; exact h1 hm
      have hrej : name ∉ st.cache.rej := fun hm => by
        rw [hs] at h5; simp at h5; exact h5 hm
      have hden : name ∉ st.cache.den := fun hm => by
        rw [hs] at h4; simp at h4; exact h4 hm
      have hres : acceptMinionOp st name inclR inclD = (.error .notFound, st) := by
        simp [acceptMinionOp, hpre, hrej, hden, ite_self]
      simp [hres, hs]
    case autoSign =>
      have hpre : name ∉ st.cache.pre := fun hm => by
        rw [hs] at h1; simp at h1; exact h1 hm
      have hrej : name ∉ st.cache.rej := fun hm => by
        rw [hs] at h5; simp at h5; exact h5 hm
      have hden : name ∉ st.cache.den := fun hm => by
        rw [hs] at h4; simp at h4; exact h4 hm
      have hres : acceptMinionOp st name inclR inclD = (.error .notFound, st) := by
        simp [acceptMinionOp, hpre, hrej, hden, ite_self]
      simp [hres, hs]
    case denied =>
      have hpre : name ∉ st.cache.pre := fun hm => by
        rw [hs] at h1; simp at h1; exact h1 hm
      have hacc : name ∉ st.cache.acc := fun hm => by
        rw [hs] at h2; simp at h2; exact h2 hm
      have hbacc : name ∉ st.buckets.acc := fun hm => hacc (h6.mp hm)
      have hrej : name ∉ st.cache.rej := fun hm => by
        rw [hs] at h5; simp at h5; exact h5 hm
      have hden : name ∈ st.cache.den := h4.mpr hs
      cases inclD
      case false =>
        have hres : acceptMinionOp st name inclR false = (.error .notFound, st) := by
          simp [acceptMinionOp, hpre, hrej, ite_self]
        simp [hres, hs]
      case true =>
        have hres : acceptMinionOp st name inclR true =
            (.ok (), setUpdate
              { st with
                cache := { st.cache with
                             den := st.cache.den.erase name
                             acc := insert name st.cache.acc }
                buckets := cacheErase
                  { st.buckets with acc := insert name st.buckets.acc }
                  MinionState.denied name }
              name MinionState.accepted) := by
          have hs' : (assocLookup st.dirs name).bind MinionDir.stateFile
              = some MinionState.denied := hs
          simp [acceptMinionOp, hpre, hrej, hden, ite_self, acceptMinionFS, getUpdate,
            hs', hbacc, cacheErase]
        refine ⟨?_, ?_, ?_⟩
        · simp [hres, hs]
        · intro hne
          exact absurd (by simp [hres]) hne
        · intro _
          refine ⟨?_, ?_, ?_, ?_, ?_, ?_⟩
          · simp [hres, setUpdate, cacheErase]
          · simp [hres, setUpdate, cacheErase, Finset.erase_eq_of_not_mem hpre]
          · simp [hres, setUpdate, cacheErase, Finset.erase_eq_of_not_mem hrej]
          · simp [hres, setUpdate, cacheErase]
          · simp [hres, setUpdate, cacheErase]
          · simp [hres, nameState, setUpdate, assocLookup_set_self]
    case rejected =>
      have hpre : name ∉ st.cache.pre := fun hm => by
        rw [hs] at h1; simp at h1; exact h1 hm
      have hacc : name ∉ st.cache.acc := fun hm => by
        rw [hs] at h2; simp at h2; exact h2 hm
      have hbacc : name ∉ st.buckets.acc := fun hm => hacc (h6.mp hm)
      have hrej : name ∈ st.cache.rej := h5.mpr hs
      have hden : name ∉ st.cache.den := fun hm => by
        rw [hs] at h4; simp at h4; exact h4 hm
      cases inclR
      case false =>
        have hres : acceptMinionOp st name false inclD = (.error .notFound, st) := by
          simp [acceptMinionOp, hpre, hden]
        simp [hres, hs]
      case true =>
        have hres : acceptMinionOp st name true inclD =
            (.ok (), setUpdate
              { st with
                cache := { st.cache with
                             rej := st.cache.rej.erase name
                             acc := insert name st.cache.acc }
                buckets := cacheErase
                  { st.buckets with acc := insert name st.buckets.acc }
                  MinionState.rejected name }
              name MinionState.accepted) := by
          have hs' : (assocLookup st.dirs name).bind MinionDir.stateFile
              = some MinionState.rejected := hs
          simp [acceptMinionOp, hpre, hrej, acceptMinionFS, getUpdate,
            hs', hbacc, cacheErase]
        refine ⟨?_, ?_, ?_⟩
        · simp [hres, hs]
        · intro hne
          exact absurd (by simp [hres]) hne
        · intro _
          refine ⟨?_, ?_, ?_, ?_, ?_, ?_⟩
          · simp [hres, setUpdate, cacheErase]
          · simp [hres, setUpdate, cacheErase, Finset.erase_eq_of_not_mem hpre]
          · simp [hres, setUpdate, cacheErase]
          · simp [hres, setUpdate, cacheErase, Finset.erase_eq_of_not_mem hden]
          · simp [hres, setUpdate, cacheErase]
          · simp [hres, nameState, setUpdate, assocLookup_set_self]

/-- Witness for C7 at the concrete one-minion storage `stW`: accepting the
unaccepted `m1` (no optional sources) succeeds and lands it in the Accepted
set. -/
theorem acceptMinion_transitions_witness :
    (acceptMinionOp stW "m1" false false).1 = .ok ()
    ∧ (acceptMinionOp stW "m1" false false).2.cache.acc = insert "m1" stW.cache.acc :=
  have h := acceptMinion_transitions stW "m1" false false (by constructor <;> decide)
  have hok : (acceptMinionOp stW "m1" false false).1 = .ok () :=
    h.1.mpr (Or.inl (by decide))
  ⟨hok, (h.2.2 hok).1⟩

end Maco

namespace Maco

/-! ### Claim C2 — `MatchTarget` is not the left-to-right connective fold -/

/-- Claim C2 counterexample: the options built from
`WithHosts("node1")`, `WithHosts("other", or)` — selection text
`node1 or other` — are valid; the spec's left-to-right fold gives
`eval(node1) || eval(other) = true || false = true` on a target with id
`node1`, but `MatchTarget` returns `false`: its `or` is applied *before*
the second term is evaluated (to `result`, still `true`, and the first
term's value) and the final result is conjoined with the last term's value.
(The trivial oracle is never consulted: only host-list terms occur.) -/
theorem matchTarget_not_fold_cex :
    validate extTrivial orOptions = .ok ()
    ∧ specFoldMatch extTrivial tgtNode1 orOptions.selections = true
    ∧ matchTarget extTrivial orOptions tgtNode1 false = (false, true) :=
  ⟨by decide, by decide, by decide⟩

/-- The loop body on the `and` connective element. -/
theorem matchStep_conn_and (ext : ExtOracle) (tgt : Target) (simple : Bool) (st : MState) :
    matchStep ext tgt simple st selAnd = { st with result := st.result && st.lastMatch } := rfl

/-- The loop body on the `or` connective element. -/
theorem matchStep_conn_or (ext : ExtOracle) (tgt : Target) (simple : Bool) (st : MState) :
    matchStep ext tgt simple st selOr = { st with result := st.result || st.lastMatch } := rfl

/-- The loop body on a non-connective term that hits the id matcher (the
target has an id and the term carries hosts, a host regex or an id range):
`lastMatch` is replaced by the term's value and `resultHit` set. -/
theorem matchStep_idTerm (ext : ExtOracle) (tgt : Target) (simple : Bool) (st : MState)
    (s : Selection) (hlog : selIsLogic s = false) (hid : tgt.id ≠ [])
    (hhit : (matchId ext s tgt.id).2 = true) :
    matchStep ext tgt simple st s =
      { st with lastMatch := (matchId ext s tgt.id).1, resultHit := true } := by
  simp only [selIsLogic, Bool.or_eq_false_iff] at hlog
  have hp : matchId ext s tgt.id = ((matchId ext s tgt.id).1, true) := by
    rw [← hhit]
  unfold matchStep
  rw [hp]
  simp [hlog.1, hlog.2, hid]

/-- The loop over the `(conn term)*` tail, from a state whose `resultHit`
is already set. -/
theorem matchTarget_foldl_pairs (ext : ExtOracle) (tgt : Target) (simple : Bool)
    (hid : tgt.id ≠ []) :
    ∀ (rest : List (Bool × Selection)),
      (∀ ct ∈ rest, selIsLogic ct.2 = false ∧ (matchId ext ct.2 tgt.id).2 = true) →
      ∀ (r l : Bool),
        List.foldl (matchStep ext tgt simple) ⟨r, true, l⟩
            ((rest.map (fun ct => [if ct.1 then selAnd else selOr, ct.2])).flatten) =
          ⟨(rest.foldl (connFoldStep ext tgt) (r, l)).1, true,
           (rest.foldl (connFoldStep ext tgt) (r, l)).2⟩ := by
  intro rest
  induction rest with
  | nil => intro _ r l; rfl
  | cons ct rest ih =>
    intro hrest r l
    obtain ⟨hlog, hhit⟩ := hrest ct (List.mem_cons_self ct rest)
    have htail := fun x hx => hrest x (List.mem_cons_of_mem ct hx)
    obtain ⟨c, t⟩ := ct
    simp only [List.map_cons, List.flatten_cons, List.cons_append, List.foldl_cons,
      List.nil_append]
    cases c
    case false =>
      rw [if_neg (by simp), matchStep_conn_or,
        matchStep_idTerm ext tgt simple _ t hlog hid hhit, ih htail]
      rfl
    case true =>
      rw [if_pos rfl, matchStep_conn_and,
        matchStep_idTerm ext tgt simple _ t hlog hid hhit, ih htail]
      rfl

/-- Claim C2 (amended): on a `term (conn term)*` sequence of id-deciding
terms (target id non-empty, each term a non-connective that hits `MatchId`),
`MatchTarget` evaluates left-to-right with no precedence, but each
connective combines the running result — initialized to `true` — with the
value of the term *preceding* it, and the returned match is that running
result AND-ed with the *last* term's value (`hit` is true).  In particular
`a or b` yields `(true || eval a) && eval b = eval b`, not
`eval a || eval b`. -/
theorem matchTarget_actual_semantics (ext : ExtOracle) (tgt : Target) (simple : Bool)
    (t0 : Selection) (rest : List (Bool × Selection))
    (h0 : selIsLogic t0 = false) (hid : tgt.id ≠ [])
    (hh0 : (matchId ext t0 tgt.id).2 = true)
    (hrest : ∀ ct ∈ rest, selIsLogic ct.2 = false ∧ (matchId ext ct.2 tgt.id).2 = true) :
    matchTarget ext ⟨seqWithConns t0 rest⟩ tgt simple =
      ((rest.foldl (connFoldStep ext tgt) (true, (matchId ext t0 tgt.id).1)).1
        && (rest.foldl (connFoldStep ext tgt) (true, (matchId ext t0 tgt.id).1)).2,
       true) := by
  unfold matchTarget seqWithConns
  simp only [List.foldl_cons]
  rw [matchStep_idTerm ext tgt simple _ t0 h0 hid hh0,
    matchTarget_foldl_pairs ext tgt simple hid rest hrest]

/-- Witness for C2 (amended): the `node1 or other` sequence against the
target with id `node1` — the theorem applies and the characterized value
computes to `(false, true)`. -/
theorem matchTarget_actual_semantics_witness :
    matchTarget extTrivial
        ⟨seqWithConns { hosts := [['n', 'o', 'd', 'e', '1']] }
          [(false, { hosts := [['o', 't', 'h', 'e', 'r']] })]⟩ tgtNode1 false =
      (false, true) :=
  (matchTarget_actual_semantics extTrivial tgtNode1 false
      { hosts := [['n', 'o', 'd', 'e', '1']] } [(false, { hosts := [['o', 't', 'h', 'e', 'r']] })]
      (by decide) (by decide) (by decide)
      (by intro ct hct; rw [List.mem_singleton.mp hct]; exact ⟨by decide, by decide⟩)).trans
    (by decide)

end Maco

namespace Maco

/-! ### Claim C4 — selection text round-trip -/

/-- Claim C4 counterexample: two valid constructor-built options whose text
does not survive one parse.  `WithRange("a:b")` renders `R@a:b`, which
re-parses to `R@b` (the scan turns `a` into a key); `WithRange(" a")`
renders `R@ a`, which re-parses to two tokens — an empty range and the host
`a` — rendering as ` a`.  (No regex or CIDR is involved: the oracle is not
consulted.) -/
theorem parseSelection_roundtrip_cex :
    validate extTrivial cexRange1 = .ok ()
    ∧ parseSelection extTrivial (optionsToText cexRange1) = .ok ⟨[{ idRange := ['b'] }]⟩
    ∧ optionsToText (⟨[{ idRange := ['b'] }]⟩ : SelectionOptions) ≠ optionsToText cexRange1
    ∧ validate extTrivial cexRange2 = .ok ()
    ∧ (parseSelection extTrivial (optionsToText cexRange2)).map optionsToText
        ≠ .ok (optionsToText cexRange2) :=
  ⟨by decide, by decide, by decide, by decide, by decide⟩

/-- A list whose head does not satisfy `p` survives `dropWhile p`. -/
theorem dropWhile_eq_self_of_head {p : Char → Bool} (l : Str)
    (h : ∀ c, l.head? = some c → p c = false) : l.dropWhile p = l := by
  cases l with
  | nil => rfl
  | cons c cs =>
    rw [List.dropWhile_cons, h c rfl]
    simp

/-- `goTrim` is the identity on strings with non-space ends. -/
theorem goTrim_eq_self (s : Str)
    (hh : ∀ c, s.head? = some c → isSpaceChar c = false)
    (hl : ∀ c, s.getLast? = some c → isSpaceChar c = false) : goTrim s = s := by
  unfold goTrim
  rw [dropWhile_eq_self_of_head s hh]
  rw [dropWhile_eq_self_of_head s.reverse (by
    intro c hc
    exact hl c (by rwa [List.head?_reverse] at hc))]
  exact List.reverse_reverse s

/-- `goTrim` is the identity on whitespace-free strings. -/
theorem goTrim_of_plain (s : Str) (h : ∀ c ∈ s, isSpaceChar c = false) :
    goTrim s = s :=
  goTrim_eq_self s
    (fun c hc => h c (List.mem_of_mem_head? hc))
    (fun c hc => h c (List.mem_of_mem_getLast? hc))

/-- A plain character is neither `@` nor `:` nor whitespace. -/
theorem plainChar_spec (c : Char) (h : plainChar c = true) :
    c ≠ '@' ∧ c ≠ ':' ∧ isSpaceChar c = false := by
  simp only [plainChar, Bool.or_eq_true, decide_eq_true_eq] at h
  push_neg at h
  exact ⟨h.1.1, h.1.2, Bool.not_eq_true _ ▸ h.2⟩

/-- The token scan walks plain characters into the accumulated piece. -/
theorem scanTok_append_plain (w : Str) (hw : ∀ c ∈ w, plainChar c = true) :
    ∀ (tag key cur rest : Str),
      scanTok tag key cur (w ++ rest) = scanTok tag key (cur ++ w) rest := by
  induction w with
  | nil => intro tag key cur rest; simp
  | cons c cs ih =>
    intro tag key cur rest
    obtain ⟨h1, h2, _⟩ := plainChar_spec c (hw c (List.mem_cons_self c cs))
    rw [List.cons_append, scanTok, if_neg h1, if_neg h2,
      ih (fun x hx => hw x (List.mem_cons_of_mem c hx))]
    simp

/-- The token scan ends a plain tail as the (trimmed) value. -/
theorem scanTok_final (v : Str) (hv : ∀ c ∈ v, plainChar c = true) :
    ∀ (tag key cur : Str), scanTok tag key cur v = (tag, key, goTrim (cur ++ v)) := by
  induction v with
  | nil =>
    intro tag key cur
    rw [scanTok, List.append_nil]
  | cons c cs ih =>
    intro tag key cur
    obtain ⟨h1, h2, _⟩ := plainChar_spec c (hv c (List.mem_cons_self c cs))
    rw [scanTok, if_neg h1, if_neg h2, ih (fun x hx => hv x (List.mem_cons_of_mem c hx))]
    simp

/-- A plain string is whitespace-free. -/
theorem plain_no_space (v : Str) (hv : ∀ c ∈ v, plainChar c = true) :
    ∀ c ∈ v, isSpaceChar c = false :=
  fun c hc => (plainChar_spec c (hv c hc)).2.2

/-- Scan of a tag-only token `T@value` with a plain value. -/
theorem scanTok_tag (tc : Char) (htc : plainChar tc = true) (v : Str)
    (hv : ∀ c ∈ v, plainChar c = true) :
    scanTok [] [] [] (tc :: '@' :: v) = ([tc], [], v) := by
  obtain ⟨h1, h2, h3⟩ := plainChar_spec tc htc
  rw [scanTok, if_neg h1, if_neg h2]
  rw [scanTok, if_pos rfl]
  rw [scanTok_final v hv]
  rw [List.nil_append, List.nil_append]
  rw [goTrim_of_plain [tc] (by
    intro c hc
    rw [List.mem_singleton.mp hc]
    exact h3)]
  rw [goTrim_of_plain v (plain_no_space v hv)]

/-- Scan of a key/value token `T@key:value` with plain key and value. -/
theorem scanTok_tag_kv (tc : Char) (htc : plainChar tc = true) (k v : Str)
    (hk : ∀ c ∈ k, plainChar c = true) (hv : ∀ c ∈ v, plainChar c = true) :
    scanTok [] [] [] (tc :: '@' :: (k ++ ':' :: v)) = ([tc], k, v) := by
  obtain ⟨h1, h2, h3⟩ := plainChar_spec tc htc
  rw [scanTok, if_neg h1, if_neg h2]
  rw [scanTok, if_pos rfl]
  rw [List.nil_append]
  rw [scanTok_append_plain k hk]
  rw [scanTok, if_neg (by simp), if_pos rfl]
  rw [List.nil_append]
  rw [scanTok_final v hv]
  rw [List.nil_append]
  rw [goTrim_of_plain [tc] (by
    intro c hc
    rw [List.mem_singleton.mp hc]
    exact h3)]
  rw [goTrim_of_plain k (plain_no_space k hk)]
  rw [goTrim_of_plain v (plain_no_space v hv)]

/-- Scan of a bare plain token. -/
theorem scanTok_bare (v : Str) (hv : ∀ c ∈ v, plainChar c = true) :
    scanTok [] [] [] v = ([], [], v) := by
  rw [scanTok_final v hv]
  rw [List.nil_append, goTrim_of_plain v (plain_no_space v hv)]

end Maco

namespace Maco

theorem cleanStr_spec (s : Str) (h : cleanStr s = true) :
    s ≠ [] ∧ ∀ c ∈ s, plainChar c = true := by
  simp only [cleanStr, Bool.and_eq_true, decide_eq_true_eq, List.all_eq_true] at h
  exact ⟨fun hnil => h.1 (by simp [hnil]), h.2⟩

theorem joinComma_single (h : Str) : joinComma [h] = h := by
  simp [joinComma, List.intercalate]

theorem joinComma_cons₂ (a b : Str) (t : List Str) :
    joinComma (a :: b :: t) = a ++ ',' :: joinComma (b :: t) := by
  simp [joinComma, List.intercalate, List.intersperse_cons_cons]

theorem joinComma_plain (hs : List Str) (h : ∀ x ∈ hs, ∀ c ∈ x, plainChar c = true) :
    ∀ c ∈ joinComma hs, plainChar c = true := by
  induction hs with
  | nil => intro c hc; simp [joinComma, List.intercalate] at hc
  | cons a t ih =>
    cases t with
    | nil =>
      rw [joinComma_single]
      exact h a (List.mem_singleton_self a)
    | cons b t' =>
      rw [joinComma_cons₂]
      intro c hc
      rcases List.mem_append.mp hc with hc | hc
      · exact h a (List.mem_cons_self a _) c hc
      · rcases List.mem_cons.mp hc with hc | hc
        · subst hc; decide
        · exact ih (fun x hx => h x (List.mem_cons_of_mem a hx)) c hc

theorem joinComma_ne_nil (hs : List Str) (hne : hs ≠ []) (h : ∀ x ∈ hs, x ≠ []) :
    joinComma hs ≠ [] := by
  cases hs with
  | nil => exact absurd rfl hne
  | cons a t =>
    cases t with
    | nil =>
      rw [joinComma_single]
      exact h a (List.mem_singleton_self a)
    | cons b t' =>
      rw [joinComma_cons₂]
      intro hcon
      exact h a (List.mem_cons_self a _) (List.append_eq_nil.mp hcon).1

theorem splitComma_ne_nil (s : Str) : splitComma s ≠ [] := by
  simp only [splitComma, List.splitOn]
  exact List.splitOnP_ne_nil _ s

theorem joinComma_splitComma (s : Str) : joinComma (splitComma s) = s := by
  simpa [joinComma, splitComma] using @List.intercalate_splitOn Char s ',' instDecidableEqChar

end Maco

namespace Maco

theorem parseTok_bare (ext : ExtOracle) (w : Str) (hw : w ≠ [])
    (hwp : ∀ c ∈ w, plainChar c = true) :
    ∃ s', parseTok ext w = .ok (some s') ∧ selToText s' = w := by
  by_cases hstar : w = ['*']
  · refine ⟨{ hosts := [['*']] }, ?_, ?_⟩
    · simp only [parseTok, scanTok_bare w hwp]
      simp [hstar]
    · rw [show selToText { hosts := [['*']] } = joinComma [['*']] from rfl,
        joinComma_single, hstar]
  · refine ⟨{ hosts := splitComma w }, ?_, ?_⟩
    · simp only [parseTok, scanTok_bare w hwp]
      simp [hstar]
    · rw [show selToText { hosts := splitComma w } =
          (if splitComma w ≠ [] then joinComma (splitComma w) else []) from rfl]
      rw [if_pos (splitComma_ne_nil w), joinComma_splitComma]

end Maco

namespace Maco

theorem append_kv_shape (tc : Char) (k v : Str) :
    [tc, '@'] ++ k ++ [':'] ++ v = tc :: '@' :: (k ++ ':' :: v) := by
  simp

theorem parseTok_ctor (ext : ExtOracle) (hrx : ∀ p, ext.rxCompiles p = true)
    (hip : ∀ p, ext.ipParses p = true) (c : Ctor) (hc : ctorClean c = true) :
    ∃ s', parseTok ext (selToText (ctorSel c)) = .ok (some s')
      ∧ selToText s' = selToText (ctorSel c) := by
  cases c with
  | hosts h lg =>
    obtain ⟨hne, hp⟩ := cleanStr_spec h hc
    have ht : selToText (ctorSel (.hosts h lg)) = h := by
      rw [show selToText (ctorSel (.hosts h lg)) = joinComma [h] from rfl, joinComma_single]
    rw [ht]
    exact parseTok_bare ext h hne hp
  | list hs lg =>
    simp only [ctorClean, Bool.and_eq_true, decide_eq_true_eq, List.all_eq_true] at hc
    have hne : hs ≠ [] := fun hnil => hc.1 (by simp [hnil])
    have helem : ∀ x ∈ hs, x ≠ [] := fun x hx => (cleanStr_spec x (hc.2 x hx)).1
    have hplain : ∀ x ∈ hs, ∀ ch ∈ x, plainChar ch = true :=
      fun x hx => (cleanStr_spec x (hc.2 x hx)).2
    have ht : selToText (ctorSel (.list hs lg)) = joinComma hs := by
      rw [show selToText (ctorSel (.list hs lg)) =
        (if hs ≠ [] then joinComma hs else []) from rfl, if_pos hne]
    rw [ht]
    exact parseTok_bare ext (joinComma hs) (joinComma_ne_nil hs hne helem)
      (joinComma_plain hs hplain)
  | hostRegex p lg =>
    obtain ⟨hne, hp⟩ := cleanStr_spec p hc
    have ht : selToText (ctorSel (.hostRegex p lg)) = 'E' :: '@' :: p := by
      rw [show selToText (ctorSel (.hostRegex p lg)) =
        (if p ≠ [] then ['E', '@'] ++ p else []) from rfl, if_pos hne]
      rfl
    refine ⟨{ hostPcre := p }, ?_, ?_⟩
    · rw [ht]
      simp only [parseTok, scanTok_tag 'E' (by decide) p hp]
      simp [hrx p]
    · rw [ht]
      rw [show selToText { hostPcre := p } =
        (if p ≠ [] then ['E', '@'] ++ p else []) from rfl, if_pos hne]
      rfl
  | range r lg =>
    obtain ⟨hne, hp⟩ := cleanStr_spec r hc
    have ht : selToText (ctorSel (.range r lg)) = 'R' :: '@' :: r := by
      rw [show selToText (ctorSel (.range r lg)) =
        (if r ≠ [] then ['R', '@'] ++ r else []) from rfl, if_pos hne]
      rfl
    refine ⟨{ idRange := r }, ?_, ?_⟩
    · rw [ht]
      simp only [parseTok, scanTok_tag 'R' (by decide) r hp]
      simp
    · rw [ht]
      rw [show selToText { idRange := r } =
        (if r ≠ [] then ['R', '@'] ++ r else []) from rfl, if_pos hne]
      rfl
  | hostGroup gs lg =>
    simp only [ctorClean, Bool.and_eq_true, decide_eq_true_eq, List.all_eq_true] at hc
    have hne : gs ≠ [] := fun hnil => hc.1 (by simp [hnil])
    have helem : ∀ x ∈ gs, x ≠ [] := fun x hx => (cleanStr_spec x (hc.2 x hx)).1
    have hplain : ∀ x ∈ gs, ∀ ch ∈ x, plainChar ch = true :=
      fun x hx => (cleanStr_spec x (hc.2 x hx)).2
    have hjne := joinComma_ne_nil gs hne helem
    have hjp := joinComma_plain gs hplain
    have ht : selToText (ctorSel (.hostGroup gs lg)) = 'N' :: '@' :: joinComma gs := by
      rw [show selToText (ctorSel (.hostGroup gs lg)) =
        (if gs ≠ [] then ['N', '@'] ++ joinComma gs else []) from rfl, if_pos hne]
      rfl
    refine ⟨{ hostGroups := splitComma (joinComma gs) }, ?_, ?_⟩
    · rw [ht]
      simp only [parseTok, scanTok_tag 'N' (by decide) (joinComma gs) hjp]
      simp [splitComma]
    · rw [ht]
      rw [show selToText { hostGroups := splitComma (joinComma gs) } =
        (if splitComma (joinComma gs) ≠ []
         then ['N', '@'] ++ joinComma (splitComma (joinComma gs)) else []) from rfl,
        if_pos (splitComma_ne_nil _), joinComma_splitComma]
      rfl
  | ipCidr cd lg =>
    obtain ⟨hne, hp⟩ := cleanStr_spec cd hc
    have ht : selToText (ctorSel (.ipCidr cd lg)) = 'S' :: '@' :: cd := by
      rw [show selToText (ctorSel (.ipCidr cd lg)) =
        (if cd ≠ [] then ['S', '@'] ++ cd else []) from rfl, if_pos hne]
      rfl
    refine ⟨{ ipCidr := cd }, ?_, ?_⟩
    · rw [ht]
      simp only [parseTok, scanTok_tag 'S' (by decide) cd hp]
      simp [hip cd]
    · rw [ht]
      rw [show selToText { ipCidr := cd } =
        (if cd ≠ [] then ['S', '@'] ++ cd else []) from rfl, if_pos hne]
      rfl
  | grains k v lg =>
    simp only [ctorClean, Bool.and_eq_true] at hc
    obtain ⟨_, hkp⟩ := cleanStr_spec k hc.1
    obtain ⟨_, hvp⟩ := cleanStr_spec v hc.2
    have ht : selToText (ctorSel (.grains k v lg)) = 'G' :: '@' :: (k ++ ':' :: v) := by
      rw [show selToText (ctorSel (.grains k v lg)) =
        ['G', '@'] ++ k ++ [':'] ++ v from rfl]
      exact append_kv_shape 'G' k v
    refine ⟨{ grains := some ⟨k, v⟩ }, ?_, ?_⟩
    · rw [ht]
      simp only [parseTok, scanTok_tag_kv 'G' (by decide) k v hkp hvp]
      simp
    · rw [ht]
      rw [show selToText { grains := some (⟨k, v⟩ : SelectionKV) } =
        ['G', '@'] ++ k ++ [':'] ++ v from rfl]
      exact append_kv_shape 'G' k v
  | grainsRegex k p lg =>
    simp only [ctorClean, Bool.and_eq_true] at hc
    obtain ⟨_, hkp⟩ := cleanStr_spec k hc.1
    obtain ⟨_, hvp⟩ := cleanStr_spec p hc.2
    have ht : selToText (ctorSel (.grainsRegex k p lg)) = 'P' :: '@' :: (k ++ ':' :: p) := by
      rw [show selToText (ctorSel (.grainsRegex k p lg)) =
        ['P', '@'] ++ k ++ [':'] ++ p from rfl]
      exact append_kv_shape 'P' k p
    refine ⟨{ grainsPcre := some ⟨k, p⟩ }, ?_, ?_⟩
    · rw [ht]
      simp only [parseTok, scanTok_tag_kv 'P' (by decide) k p hkp hvp]
      simp [hrx p]
    · rw [ht]
      rw [show selToText { grainsPcre := some (⟨k, p⟩ : SelectionKV) } =
        ['P', '@'] ++ k ++ [':'] ++ p from rfl]
      exact append_kv_shape 'P' k p
  | pillar k v lg =>
    simp only [ctorClean, Bool.and_eq_true] at hc
    obtain ⟨_, hkp⟩ := cleanStr_spec k hc.1
    obtain ⟨_, hvp⟩ := cleanStr_spec v hc.2
    have ht : selToText (ctorSel (.pillar k v lg)) = 'I' :: '@' :: (k ++ ':' :: v) := by
      rw [show selToText (ctorSel (.pillar k v lg)) =
        ['I', '@'] ++ k ++ [':'] ++ v from rfl]
      exact append_kv_shape 'I' k v
    refine ⟨{ pillar := some ⟨k, v⟩ }, ?_, ?_⟩
    · rw [ht]
      simp only [parseTok, scanTok_tag_kv 'I' (by decide) k v hkp hvp]
      simp
    · rw [ht]
      rw [show selToText { pillar := some (⟨k, v⟩ : SelectionKV) } =
        ['I', '@'] ++ k ++ [':'] ++ v from rfl]
      exact append_kv_shape 'I' k v
  | pillarRegex k p lg =>
    simp only [ctorClean, Bool.and_eq_true] at hc
    obtain ⟨_, hkp⟩ := cleanStr_spec k hc.1
    obtain ⟨_, hvp⟩ := cleanStr_spec p hc.2
    have ht : selToText (ctorSel (.pillarRegex k p lg)) = 'J' :: '@' :: (k ++ ':' :: p) := by
      rw [show selToText (ctorSel (.pillarRegex k p lg)) =
        ['J', '@'] ++ k ++ [':'] ++ p from rfl]
      exact append_kv_shape 'J' k p
    refine ⟨{ pillarPcre := some ⟨k, p⟩ }, ?_, ?_⟩
    · rw [ht]
      simp only [parseTok, scanTok_tag_kv 'J' (by decide) k p hkp hvp]
      simp [hrx p]
    · rw [ht]
      rw [show selToText { pillarPcre := some (⟨k, p⟩ : SelectionKV) } =
        ['J', '@'] ++ k ++ [':'] ++ p from rfl]
      exact append_kv_shape 'J' k p

end Maco

namespace Maco

theorem tag_token_safe (tc : Char) (h1 : isSpaceChar tc = false) (v : Str)
    (hv : ∀ c ∈ v, isSpaceChar c = false) :
    (tc :: '@' :: v ≠ []) ∧ ∀ ch ∈ tc :: '@' :: v, isSpaceChar ch = false := by
  refine ⟨by simp, ?_⟩
  intro ch hch
  rcases List.mem_cons.mp hch with rfl | hch
  · exact h1
  rcases List.mem_cons.mp hch with rfl | hch
  · decide
  · exact hv ch hch

theorem kv_token_safe (tc : Char) (h1 : isSpaceChar tc = false) (k v : Str)
    (hk : ∀ c ∈ k, isSpaceChar c = false) (hv : ∀ c ∈ v, isSpaceChar c = false) :
    (tc :: '@' :: (k ++ ':' :: v) ≠ [])
    ∧ ∀ ch ∈ tc :: '@' :: (k ++ ':' :: v), isSpaceChar ch = false := by
  refine ⟨by simp, ?_⟩
  intro ch hch
  rcases List.mem_cons.mp hch with rfl | hch
  · exact h1
  rcases List.mem_cons.mp hch with rfl | hch
  · decide
  rcases List.mem_append.mp hch with hch | hch
  · exact hk ch hch
  rcases List.mem_cons.mp hch with rfl | hch
  · decide
  · exact hv ch hch

/-- Every constructor token is non-empty and whitespace-free. -/
theorem selToText_ctor_safe (c : Ctor) (hc : ctorClean c = true) :
    selToText (ctorSel c) ≠ [] ∧ ∀ ch ∈ selToText (ctorSel c), isSpaceChar ch = false := by
  cases c with
  | hosts h lg =>
    obtain ⟨hne, hp⟩ := cleanStr_spec h hc
    rw [show selToText (ctorSel (.hosts h lg)) = joinComma [h] from rfl, joinComma_single]
    exact ⟨hne, plain_no_space h hp⟩
  | list hs lg =>
    simp only [ctorClean, Bool.and_eq_true, decide_eq_true_eq, List.all_eq_true] at hc
    have hne : hs ≠ [] := fun hnil => hc.1 (by simp [hnil])
    have helem : ∀ x ∈ hs, x ≠ [] := fun x hx => (cleanStr_spec x (hc.2 x hx)).1
    have hplain : ∀ x ∈ hs, ∀ ch ∈ x, plainChar ch = true :=
      fun x hx => (cleanStr_spec x (hc.2 x hx)).2
    rw [show selToText (ctorSel (.list hs lg)) =
      (if hs ≠ [] then joinComma hs else []) from rfl, if_pos hne]
    exact ⟨joinComma_ne_nil hs hne helem,
      plain_no_space (joinComma hs) (joinComma_plain hs hplain)⟩
  | hostRegex p lg =>
    obtain ⟨hne, hp⟩ := cleanStr_spec p hc
    rw [show selToText (ctorSel (.hostRegex p lg)) =
      (if p ≠ [] then ['E', '@'] ++ p else []) from rfl, if_pos hne,
      show (['E', '@'] ++ p : Str) = 'E' :: '@' :: p from rfl]
    exact tag_token_safe 'E' (by decide) p (plain_no_space p hp)
  | range r lg =>
    obtain ⟨hne, hp⟩ := cleanStr_spec r hc
    rw [show selToText (ctorSel (.range r lg)) =
      (if r ≠ [] then ['R', '@'] ++ r else []) from rfl, if_pos hne,
      show (['R', '@'] ++ r : Str) = 'R' :: '@' :: r from rfl]
    exact tag_token_safe 'R' (by decide) r (plain_no_space r hp)
  | hostGroup gs lg =>
    simp only [ctorClean, Bool.and_eq_true, decide_eq_true_eq, List.all_eq_true] at hc
    have hne : gs ≠ [] := fun hnil => hc.1 (by simp [hnil])
    have helem : ∀ x ∈ gs, x ≠ [] := fun x hx => (cleanStr_spec x (hc.2 x hx)).1
    have hplain : ∀ x ∈ gs, ∀ ch ∈ x, plainChar ch = true :=
      fun x hx => (cleanStr_spec x (hc.2 x hx)).2
    rw [show selToText (ctorSel (.hostGroup gs lg)) =
      (if gs ≠ [] then ['N', '@'] ++ joinComma gs else []) from rfl, if_pos hne,
      show (['N', '@'] ++ joinComma gs : Str) = 'N' :: '@' :: joinComma gs from rfl]
    exact tag_token_safe 'N' (by decide) (joinComma gs)
      (plain_no_space (joinComma gs) (joinComma_plain gs hplain))
  | ipCidr cd lg =>
    obtain ⟨hne, hp⟩ := cleanStr_spec cd hc
    rw [show selToText (ctorSel (.ipCidr cd lg)) =
      (if cd ≠ [] then ['S', '@'] ++ cd else []) from rfl, if_pos hne,
      show (['S', '@'] ++ cd : Str) = 'S' :: '@' :: cd from rfl]
    exact tag_token_safe 'S' (by decide) cd (plain_no_space cd hp)
  | grains k v lg =>
    simp only [ctorClean, Bool.and_eq_true] at hc
    obtain ⟨_, hkp⟩ := cleanStr_spec k hc.1
    obtain ⟨_, hvp⟩ := cleanStr_spec v hc.2
    rw [show selToText (ctorSel (.grains k v lg)) =
      ['G', '@'] ++ k ++ [':'] ++ v from rfl, append_kv_shape 'G' k v]
    exact kv_token_safe 'G' (by decide) k v (plain_no_space k hkp) (plain_no_space v hvp)
  | grainsRegex k p lg =>
    simp only [ctorClean, Bool.and_eq_true] at hc
    obtain ⟨_, hkp⟩ := cleanStr_spec k hc.1
    obtain ⟨_, hvp⟩ := cleanStr_spec p hc.2
    rw [show selToText (ctorSel (.grainsRegex k p lg)) =
      ['P', '@'] ++ k ++ [':'] ++ p from rfl, append_kv_shape 'P' k p]
    exact kv_token_safe 'P' (by decide) k p (plain_no_space k hkp) (plain_no_space p hvp)
  | pillar k v lg =>
    simp only [ctorClean, Bool.and_eq_true] at hc
    obtain ⟨_, hkp⟩ := cleanStr_spec k hc.1
    obtain ⟨_, hvp⟩ := cleanStr_spec v hc.2
    rw [show selToText (ctorSel (.pillar k v lg)) =
      ['I', '@'] ++ k ++ [':'] ++ v from rfl, append_kv_shape 'I' k v]
    exact kv_token_safe 'I' (by decide) k v (plain_no_space k hkp) (plain_no_space v hvp)
  | pillarRegex k p lg =>
    simp only [ctorClean, Bool.and_eq_true] at hc
    obtain ⟨_, hkp⟩ := cleanStr_spec k hc.1
    obtain ⟨_, hvp⟩ := cleanStr_spec p hc.2
    rw [show selToText (ctorSel (.pillarRegex k p lg)) =
      ['J', '@'] ++ k ++ [':'] ++ p from rfl, append_kv_shape 'J' k p]
    exact kv_token_safe 'J' (by decide) k p (plain_no_space k hkp) (plain_no_space p hvp)

/-- Parsing the literal token `and` (its tag is empty, so it goes through
the host case). -/
theorem parseTok_and (ext : ExtOracle) :
    parseTok ext ['a', 'n', 'd'] = .ok (some { hosts := [['a', 'n', 'd']] }) := rfl

/-- Parsing the literal token `or`. -/
theorem parseTok_or (ext : ExtOracle) :
    parseTok ext ['o', 'r'] = .ok (some { hosts := [['o', 'r']] }) := rfl

/-- The connective element renders as its token, which re-parses as a
one-host selection rendering identically. -/
theorem parseTok_conn (ext : ExtOracle) (c : Ctor) :
    ∃ s', parseTok ext (selToText (connOf c)) = .ok (some s')
      ∧ selToText s' = selToText (connOf c) := by
  unfold connOf
  by_cases hf : andFlagOf (ctorLg c) = true
  · rw [if_pos hf]
    exact ⟨{ hosts := [['a', 'n', 'd']] }, parseTok_and ext, by decide⟩
  · rw [if_neg hf]
    exact ⟨{ hosts := [['o', 'r']] }, parseTok_or ext, by decide⟩

/-- The connective token is non-empty and whitespace-free. -/
theorem connOf_safe (c : Ctor) :
    selToText (connOf c) ≠ [] ∧ ∀ ch ∈ selToText (connOf c), isSpaceChar ch = false := by
  unfold connOf
  by_cases hf : andFlagOf (ctorLg c) = true
  · rw [if_pos hf]
    exact ⟨by decide, by decide⟩
  · rw [if_neg hf]
    exact ⟨by decide, by decide⟩

end Maco

namespace Maco

theorem applyCtor_selections (o : SelectionOptions) (c : Ctor) :
    (applyCtor o c).selections
      = if o.selections.isEmpty then [ctorSel c]
        else o.selections ++ [connOf c, ctorSel c] := by
  cases c <;>
    simp only [applyCtor, withHosts, withList, withHostRegex, withRange, withHostGroup,
      withIPCidr, withGrains, withGrainsRegex, withPillar, withPillarRegex,
      appendSel, connOf, ctorSel, ctorLg] <;>
    split <;> first
      | rfl
      | (rename_i h
         split <;> rename_i h2 <;> simp [h2])

theorem foldl_applyCtor_selections (cs : List Ctor) :
    ∀ o : SelectionOptions, o.selections ≠ [] →
      (cs.foldl applyCtor o).selections
        = o.selections ++ (cs.map fun c => [connOf c, ctorSel c]).flatten := by
  induction cs with
  | nil => intro o _; simp
  | cons c cs ih =>
    intro o ho
    have h1 : (applyCtor o c).selections = o.selections ++ [connOf c, ctorSel c] := by
      rw [applyCtor_selections, if_neg (by simpa [List.isEmpty_iff] using ho)]
    rw [List.foldl_cons, ih (applyCtor o c) (by simp [h1]), h1]
    simp

/-- The selections of a constructor-built options value: the first term
bare, each later term behind its connective. -/
theorem buildOptions_selections (c0 : Ctor) (cs : List Ctor) :
    (buildOptions (c0 :: cs)).selections
      = ctorSel c0 :: (cs.map fun c => [connOf c, ctorSel c]).flatten := by
  have h0 : (applyCtor {} c0).selections = [ctorSel c0] := by
    rw [applyCtor_selections]; rfl
  unfold buildOptions
  rw [List.foldl_cons, foldl_applyCtor_selections cs (applyCtor {} c0) (by simp [h0]), h0]
  rfl

end Maco

namespace Maco

theorem intercalate_space_cons₂ (a b : Str) (l : List Str) :
    List.intercalate [' '] (a :: b :: l) = a ++ ' ' :: List.intercalate [' '] (b :: l) := by
  simp [List.intercalate, List.intersperse_cons_cons]

theorem intercalate_space_ne_nil (toks : List Str) (h : toks ≠ [])
    (he : ∀ t ∈ toks, t ≠ []) : List.intercalate [' '] toks ≠ [] := by
  cases toks with
  | nil => exact absurd rfl h
  | cons t ts =>
    cases ts with
    | nil =>
      simpa [List.intercalate] using he t (by simp)
    | cons t' ts' =>
      rw [intercalate_space_cons₂]
      intro hnil
      exact absurd (List.append_eq_nil.mp hnil).2 (by simp)

theorem head?_intercalate_space (t : Str) (ts : List Str) (ht : t ≠ []) :
    (List.intercalate [' '] (t :: ts)).head? = t.head? := by
  cases ts with
  | nil => simp [List.intercalate]
  | cons t' ts' =>
    rw [intercalate_space_cons₂]
    exact List.head?_append_of_ne_nil _ ht

theorem getLast?_intercalate_space (toks : List Str) (h : toks ≠ [])
    (he : ∀ t ∈ toks, t ≠ []) :
    ∃ t ∈ toks, (List.intercalate [' '] toks).getLast? = t.getLast? := by
  induction toks with
  | nil => exact absurd rfl h
  | cons t ts ih =>
    cases ts with
    | nil => exact ⟨t, by simp, by simp [List.intercalate]⟩
    | cons t' ts' =>
      obtain ⟨u, hu, hlast⟩ := ih (by simp) (fun x hx => he x (by simp [hx]))
      refine ⟨u, by simp [List.mem_cons.mp hu], ?_⟩
      have hrest : List.intercalate [' '] (t' :: ts') ≠ [] :=
        intercalate_space_ne_nil (t' :: ts') (by simp)
          (fun x hx => he x (by simp [List.mem_cons.mp hx]))
      rw [intercalate_space_cons₂,
        show (' ' :: List.intercalate [' '] (t' :: ts') : Str)
          = [' '] ++ List.intercalate [' '] (t' :: ts') from rfl,
        List.getLast?_append_of_ne_nil _ (by simp), List.getLast?_append_of_ne_nil _ hrest,
        hlast]

theorem mem_intercalate_head (t : Str) (ts : List Str) (ht : t ≠ []) (c : Char)
    (hc : (List.intercalate [' '] (t :: ts)).head? = some c) : c ∈ t := by
  rw [head?_intercalate_space t ts ht] at hc
  exact List.mem_of_mem_head? hc

/-- The space-joined rendering of non-empty whitespace-free tokens is
already trimmed. -/
theorem goTrim_intercalate (toks : List Str) (hne : toks ≠ [])
    (hsafe : ∀ t ∈ toks, t ≠ [] ∧ ∀ ch ∈ t, isSpaceChar ch = false) :
    goTrim (List.intercalate [' '] toks) = List.intercalate [' '] toks := by
  cases toks with
  | nil => exact absurd rfl hne
  | cons t ts =>
    refine goTrim_eq_self _ ?_ ?_
    · intro c hc
      exact (hsafe t (by simp)).2 c
        (mem_intercalate_head t ts (hsafe t (by simp)).1 c hc)
    · intro c hc
      obtain ⟨u, hu, hlast⟩ :=
        getLast?_intercalate_space (t :: ts) (by simp) (fun x hx => (hsafe x hx).1)
      rw [hlast] at hc
      exact (hsafe u hu).2 c (List.mem_of_mem_getLast? hc)

end Maco

namespace Maco

theorem parseToks_renders (ext : ExtOracle) (toks : List Str)
    (h : ∀ t ∈ toks, ∃ s', parseTok ext t = .ok (some s') ∧ selToText s' = t) :
    ∃ sels, parseToks ext toks = .ok sels ∧ sels.map selToText = toks := by
  induction toks with
  | nil => exact ⟨[], rfl, rfl⟩
  | cons t ts ih =>
    obtain ⟨s', hp, hr⟩ := h t (by simp)
    obtain ⟨sels, hps, hrs⟩ := ih (fun x hx => h x (by simp [hx]))
    refine ⟨s' :: sels, ?_, by simp [hrs, hr]⟩
    simp only [parseToks]
    rw [hp, hps]
    rfl

theorem mem_buildOptions_selections (c0 : Ctor) (cs : List Ctor) (s : Selection)
    (hs : s ∈ (buildOptions (c0 :: cs)).selections) :
    s = ctorSel c0 ∨ ∃ c ∈ cs, s = connOf c ∨ s = ctorSel c := by
  rw [buildOptions_selections] at hs
  rcases List.mem_cons.mp hs with rfl | hs
  · exact Or.inl rfl
  right
  obtain ⟨l, hl, hsl⟩ := List.mem_flatten.mp hs
  obtain ⟨c, hc, rfl⟩ := List.mem_map.mp hl
  refine ⟨c, hc, ?_⟩
  rcases List.mem_cons.mp hsl with rfl | hsl
  · exact Or.inl rfl
  · exact Or.inr (by simpa using hsl)

/-- C4: `ParseSelection` is *not* the identity on the textual form of every
valid constructor-built options value (see the counterexample); amended,
the round-trip does hold whenever each constructor argument string is
non-empty and free of `@`, `:` and whitespace: parsing the rendering
succeeds and re-rendering reproduces the text. -/
theorem parseSelection_roundtrip_amended (ext : ExtOracle) (cs : List Ctor)
    (hne : cs ≠ []) (hclean : ∀ c ∈ cs, ctorClean c = true)
    (hrx : ∀ p, ext.rxCompiles p = true) (hip : ∀ p, ext.ipParses p = true)
    (_hvalid : validate ext (buildOptions cs) = .ok ()) :
    (parseSelection ext (optionsToText (buildOptions cs))).map optionsToText
      = .ok (optionsToText (buildOptions cs)) := by
  obtain ⟨c0, cs', rfl⟩ : ∃ c0 cs', cs = c0 :: cs' := by
    cases cs with
    | nil => exact absurd rfl hne
    | cons a b => exact ⟨a, b, rfl⟩
  have hmem : ∀ t ∈ (buildOptions (c0 :: cs')).selections.map selToText,
      (t ≠ [] ∧ ∀ ch ∈ t, isSpaceChar ch = false)
      ∧ ∃ s', parseTok ext t = .ok (some s') ∧ selToText s' = t := by
    intro t ht
    obtain ⟨s, hs, rfl⟩ := List.mem_map.mp ht
    rcases mem_buildOptions_selections c0 cs' s hs with rfl | ⟨c, hc, hcase⟩
    · exact ⟨selToText_ctor_safe c0 (hclean c0 (by simp)),
        parseTok_ctor ext hrx hip c0 (hclean c0 (by simp))⟩
    rcases hcase with rfl | rfl
    · exact ⟨connOf_safe c, parseTok_conn ext c⟩
    · exact ⟨selToText_ctor_safe c (hclean c (by simp [hc])),
        parseTok_ctor ext hrx hip c (hclean c (by simp [hc]))⟩
  have htne : (buildOptions (c0 :: cs')).selections.map selToText ≠ [] := by
    rw [buildOptions_selections]
    simp
  have hsafe : ∀ t ∈ (buildOptions (c0 :: cs')).selections.map selToText,
      t ≠ [] ∧ ∀ ch ∈ t, isSpaceChar ch = false :=
    fun t ht => (hmem t ht).1
  have hTrim :
      goTrim (List.intercalate [' '] ((buildOptions (c0 :: cs')).selections.map selToText))
        = List.intercalate [' '] ((buildOptions (c0 :: cs')).selections.map selToText) :=
    goTrim_intercalate _ htne hsafe
  have hsplit :
      (List.intercalate [' ']
          ((buildOptions (c0 :: cs')).selections.map selToText)).splitOn ' '
        = (buildOptions (c0 :: cs')).selections.map selToText :=
    @List.splitOn_intercalate Char ((buildOptions (c0 :: cs')).selections.map selToText)
      instDecidableEqChar ' '
      (fun l hl hsp => absurd ((hsafe l hl).2 ' ' hsp) (by decide)) htne
  obtain ⟨sels, hps, hrs⟩ :=
    parseToks_renders ext ((buildOptions (c0 :: cs')).selections.map selToText)
      (fun t ht => (hmem t ht).2)
  unfold parseSelection
  rw [show optionsToText (buildOptions (c0 :: cs'))
      = List.intercalate [' '] ((buildOptions (c0 :: cs')).selections.map selToText) from rfl,
    hTrim, hsplit, hps]
  simp only [Except.map]
  rw [show optionsToText ({ selections := sels } : SelectionOptions)
      = List.intercalate [' '] (sels.map selToText) from rfl, hrs]

end Maco

namespace Maco

/-- Witness for the amended round-trip: the two-term selection
`n or G@o:x` built from `WithHosts` and `WithGrains`. -/
theorem parseSelection_roundtrip_amended_witness :
    (parseSelection extTrivial (optionsToText (buildOptions
        [Ctor.hosts ['n'] [], Ctor.grains ['o'] ['x'] [false]]))).map optionsToText
      = .ok (optionsToText (buildOptions
        [Ctor.hosts ['n'] [], Ctor.grains ['o'] ['x'] [false]])) :=
  parseSelection_roundtrip_amended extTrivial
    [Ctor.hosts ['n'] [], Ctor.grains ['o'] ['x'] [false]]
    (List.cons_ne_nil _ _)
    (by
      intro c hc
      rcases List.mem_cons.mp hc with rfl | hc
      · decide
      rcases List.mem_cons.mp hc with rfl | hc
      · decide
      · exact absurd hc (List.not_mem_nil c))
    (fun _ => rfl) (fun _ => rfl)
    (by decide)

end Maco
